import Mathlib

/-!
Verification of the "Sokoban on Ice" planner.

The development embeds, as executable Lean definitions, the core of the
repository:
  * the ice-physics simulator `slide_robot_and_box` (search_planner.py),
  * the constraint system built by `encode_sat_plan` (sat_encoding.py),
    as a satisfaction predicate over an explicit Boolean model,
  * the model decoder `plan_sat` (sat_planner.py),
  * the breadth-first search `plan_bfs` (search_planner.py),
  * the horizon driver of main.py (its as_completed completion order is
    made an explicit parameter).

Python `while` loops are rendered as fuel recursion; every wrapper passes
a fuel bound that dominates the number of iterations the loop can make
(a slide advances one cell per iteration and stays inside the grid, so
`rows + cols + 1` iterations always suffice).
-/

namespace SokobanIce

/-- A cell coordinate `(row, col)`.  Python uses plain ints, and slide loops
step outside the grid before the bounds check, so coordinates are `Int`. -/
abbrev Pos := Int × Int

/-- Default cell used with `List.getD`; every real lookup is in bounds. -/
def dp : Pos := (0, 0)

/-- The grid: a list of rows of characters, `'#'` is a wall/obstacle. -/
abbrev Grid := List (List Char)

def rowsOf (g : Grid) : Nat := g.length

/-- `cols = len(grid[0]) if rows > 0 else 0`. -/
def colsOf (g : Grid) : Nat := (g.headD []).length

/-- `0 <= r < rows and 0 <= c < cols`. -/
def inBounds (g : Grid) (p : Pos) : Bool :=
  decide (0 ≤ p.1) && decide (p.1 < (rowsOf g : Int)) &&
  decide (0 ≤ p.2) && decide (p.2 < (colsOf g : Int))

/-- `grid[r][c]` (callers check bounds first, as the Python does). -/
def cellAt (g : Grid) (p : Pos) : Char :=
  (g.getD p.1.toNat []).getD p.2.toNat ' '

/-- The four directions, in source order: up, down, left, right. -/
def directions : List (Int × Int) := [(-1, 0), (1, 0), (0, -1), (0, 1)]

/-- `for ob_id, (ob_r, ob_c) in new_bpos.items(): ob_id != box_id and position
matches` — is some box other than `b` at `p`? -/
def otherBoxAt (boxes : List Pos) (b : Nat) (p : Pos) : Bool :=
  (List.range boxes.length).any fun i => (i != b) && (boxes.getD i dp == p)

/-- First box id whose position is `p` (dict iteration order is id order). -/
def boxIdAt (boxes : List Pos) (p : Pos) : Option Nat :=
  (List.range boxes.length).find? fun i => boxes.getD i dp == p

/-- The inner `while` of `slide_robot_and_box`: the pushed box `b` slides from
`p` one cell at a time until the next cell is out of bounds, a wall, or holds
another box. -/
def slideBox (g : Grid) (d : Int × Int) (boxes : List Pos) (b : Nat)
    (p : Pos) : Nat → Pos
  | 0 => p
  | fuel + 1 =>
    let p2 : Pos := (p.1 + d.1, p.2 + d.2)
    if !inBounds g p2 then p
    else if cellAt g p2 == '#' then p
    else if otherBoxAt boxes b p2 then p
    else slideBox g d boxes b p2 fuel

/-- The outer `while` of `slide_robot_and_box`: the robot advances cell by
cell; hitting a box triggers one push (inner loop), after which the move ends
with the robot one cell behind the box's final position. -/
def slideGo (g : Grid) (d : Int × Int) (boxes : List Pos) (p : Pos) :
    Nat → Pos × List Pos
  | 0 => (p, boxes)
  | fuel + 1 =>
    let p2 : Pos := (p.1 + d.1, p.2 + d.2)
    if !inBounds g p2 then (p, boxes)
    else if cellAt g p2 == '#' then (p, boxes)
    else
      match boxIdAt boxes p2 with
      | none => slideGo g d boxes p2 fuel
      | some b =>
        let q := slideBox g d boxes b p2 (rowsOf g + colsOf g + 1)
        ((q.1 - d.1, q.2 - d.2), boxes.set b q)

/-- `slide_robot_and_box` of search_planner.py (also duplicated verbatim in
sat_encoding.py): one commanded move of the robot in direction `d`. -/
def slide_robot_and_box (g : Grid) (p : Pos) (d : Int × Int)
    (boxes : List Pos) : Pos × List Pos :=
  slideGo g d boxes p (rowsOf g + colsOf g + 1)

/-- A cell the robot or a box may occupy: in bounds and not a wall. -/
def validCell (g : Grid) (p : Pos) : Bool :=
  inBounds g p && !(cellAt g p == '#')

/-- The configuration invariant on the box list: every box on a valid cell,
no two boxes on the same cell. -/
def boxesOK (g : Grid) (bs : List Pos) : Bool :=
  ((List.range bs.length).all fun i => validCell g (bs.getD i dp)) &&
  ((List.range bs.length).all fun i => (List.range bs.length).all fun j =>
    (i == j) || !(bs.getD i dp == bs.getD j dp))

/-! ### Unfolding and basic lemmas for the simulator -/

theorem slideBox_succ (g : Grid) (d : Int × Int) (bs : List Pos) (b : Nat)
    (p : Pos) (n : Nat) :
    slideBox g d bs b p (n + 1) =
      if !inBounds g (p.1 + d.1, p.2 + d.2) then p
      else if cellAt g (p.1 + d.1, p.2 + d.2) == '#' then p
      else if otherBoxAt bs b (p.1 + d.1, p.2 + d.2) then p
      else slideBox g d bs b (p.1 + d.1, p.2 + d.2) n := rfl

theorem slideGo_succ (g : Grid) (d : Int × Int) (bs : List Pos) (p : Pos)
    (n : Nat) :
    slideGo g d bs p (n + 1) =
      if !inBounds g (p.1 + d.1, p.2 + d.2) then (p, bs)
      else if cellAt g (p.1 + d.1, p.2 + d.2) == '#' then (p, bs)
      else
        match boxIdAt bs (p.1 + d.1, p.2 + d.2) with
        | none => slideGo g d bs (p.1 + d.1, p.2 + d.2) n
        | some b =>
          let q := slideBox g d bs b (p.1 + d.1, p.2 + d.2)
                     (rowsOf g + colsOf g + 1)
          ((q.1 - d.1, q.2 - d.2), bs.set b q) := rfl

theorem slideBox_eq_stop (g : Grid) (d : Int × Int) (bs : List Pos) (b : Nat)
    (p : Pos) (n : Nat)
    (h : inBounds g (p.1 + d.1, p.2 + d.2) = false ∨
         cellAt g (p.1 + d.1, p.2 + d.2) = '#' ∨
         otherBoxAt bs b (p.1 + d.1, p.2 + d.2) = true) :
    slideBox g d bs b p (n + 1) = p := by
  rw [slideBox_succ]
  rcases h with h | h | h
  · simp [h]
  · by_cases hb : inBounds g (p.1 + d.1, p.2 + d.2) <;> simp [hb, h]
  · by_cases hb : inBounds g (p.1 + d.1, p.2 + d.2) <;>
      by_cases hw : cellAt g (p.1 + d.1, p.2 + d.2) = '#' <;> simp [hb, hw, h]

theorem slideBox_eq_advance (g : Grid) (d : Int × Int) (bs : List Pos)
    (b : Nat) (p : Pos) (n : Nat)
    (hin : inBounds g (p.1 + d.1, p.2 + d.2) = true)
    (hw : cellAt g (p.1 + d.1, p.2 + d.2) ≠ '#')
    (hob : otherBoxAt bs b (p.1 + d.1, p.2 + d.2) = false) :
    slideBox g d bs b p (n + 1) =
      slideBox g d bs b (p.1 + d.1, p.2 + d.2) n := by
  rw [slideBox_succ]
  simp [hin, hw, hob]

/-- If the very first step is off-grid or a wall the slide is the identity. -/
theorem slideGo_blocked (g : Grid) (d : Int × Int) (bs : List Pos) (p : Pos)
    (n : Nat)
    (h : inBounds g (p.1 + d.1, p.2 + d.2) = false ∨
         cellAt g (p.1 + d.1, p.2 + d.2) = '#') :
    slideGo g d bs p (n + 1) = (p, bs) := by
  rw [slideGo_succ]
  rcases h with h | h
  · simp [h]
  · by_cases hb : inBounds g (p.1 + d.1, p.2 + d.2) <;> simp [hb, h]

theorem slideGo_eq_nobox (g : Grid) (d : Int × Int) (bs : List Pos) (p : Pos)
    (n : Nat) (hin : inBounds g (p.1 + d.1, p.2 + d.2) = true)
    (hw : cellAt g (p.1 + d.1, p.2 + d.2) ≠ '#')
    (hnb : boxIdAt bs (p.1 + d.1, p.2 + d.2) = none) :
    slideGo g d bs p (n + 1) = slideGo g d bs (p.1 + d.1, p.2 + d.2) n := by
  rw [slideGo_succ]
  simp [hin, hw, hnb]

theorem slideGo_eq_box (g : Grid) (d : Int × Int) (bs : List Pos) (p : Pos)
    (n : Nat) (b : Nat) (hin : inBounds g (p.1 + d.1, p.2 + d.2) = true)
    (hw : cellAt g (p.1 + d.1, p.2 + d.2) ≠ '#')
    (hb : boxIdAt bs (p.1 + d.1, p.2 + d.2) = some b) :
    slideGo g d bs p (n + 1) =
      (((slideBox g d bs b (p.1 + d.1, p.2 + d.2) (rowsOf g + colsOf g + 1)).1
          - d.1,
        (slideBox g d bs b (p.1 + d.1, p.2 + d.2) (rowsOf g + colsOf g + 1)).2
          - d.2),
       bs.set b
         (slideBox g d bs b (p.1 + d.1, p.2 + d.2) (rowsOf g + colsOf g + 1))) := by
  rw [slideGo_succ]
  simp [hin, hw, hb]

/-- A found box id is a real index sitting at the probed position. -/
theorem boxIdAt_some {bs : List Pos} {p : Pos} {b : Nat}
    (h : boxIdAt bs p = some b) : b < bs.length ∧ bs.getD b dp = p := by
  have hmem := List.mem_of_find?_eq_some h
  have hpred := List.find?_some h
  rw [List.mem_range] at hmem
  rw [beq_iff_eq] at hpred
  exact ⟨hmem, hpred⟩

theorem otherBoxAt_false_iff {bs : List Pos} {b : Nat} {p : Pos} :
    otherBoxAt bs b p = false ↔
      ∀ i, i < bs.length → i ≠ b → bs.getD i dp ≠ p := by
  rw [← Bool.not_eq_true]
  simp only [otherBoxAt, List.any_eq_true, List.mem_range, Bool.and_eq_true,
    bne_iff_ne, beq_iff_eq, not_exists, not_and, ne_eq]

theorem boxesOK_iff {g : Grid} {bs : List Pos} :
    boxesOK g bs = true ↔
      (∀ i, i < bs.length → validCell g (bs.getD i dp) = true) ∧
      (∀ i j, i < bs.length → j < bs.length → i ≠ j →
        bs.getD i dp ≠ bs.getD j dp) := by
  simp only [boxesOK, Bool.and_eq_true, List.all_eq_true, List.mem_range]
  constructor
  · rintro ⟨h1, h2⟩
    refine ⟨h1, fun i j hi hj hne => ?_⟩
    have h := h2 i hi j hj
    simp only [Bool.or_eq_true, beq_iff_eq, Bool.not_eq_true',
      beq_eq_false_iff_ne, ne_eq] at h
    rcases h with h | h
    · exact absurd h hne
    · exact h
  · rintro ⟨h1, h2⟩
    refine ⟨h1, fun i hi j hj => ?_⟩
    by_cases hij : i = j
    · simp [hij]
    · simp only [Bool.or_eq_true, beq_iff_eq, Bool.not_eq_true',
        beq_eq_false_iff_ne, ne_eq]
      exact Or.inr (h2 i j hi hj hij)

/-- What the inner push loop guarantees: the box ends on a valid cell, free of
the other boxes, and (unless it never moved) the cell one step behind it is
valid as well. -/
theorem slideBox_spec (g : Grid) (d : Int × Int) (bs : List Pos) (b : Nat) :
    ∀ (fuel : Nat) (p : Pos), validCell g p = true → otherBoxAt bs b p = false →
      validCell g (slideBox g d bs b p fuel) = true ∧
      otherBoxAt bs b (slideBox g d bs b p fuel) = false ∧
      (slideBox g d bs b p fuel = p ∨
        validCell g ((slideBox g d bs b p fuel).1 - d.1,
                      (slideBox g d bs b p fuel).2 - d.2) = true) := by
  intro fuel
  induction fuel with
  | zero => exact fun p hp hob => ⟨hp, hob, Or.inl rfl⟩
  | succ n ih =>
    intro p hp hob
    by_cases h1 : inBounds g (p.1 + d.1, p.2 + d.2)
    · by_cases h2 : cellAt g (p.1 + d.1, p.2 + d.2) = '#'
      · rw [slideBox_eq_stop g d bs b p n (Or.inr (Or.inl h2))]
        exact ⟨hp, hob, Or.inl rfl⟩
      · by_cases h3 : otherBoxAt bs b (p.1 + d.1, p.2 + d.2)
        · rw [slideBox_eq_stop g d bs b p n (Or.inr (Or.inr h3))]
          exact ⟨hp, hob, Or.inl rfl⟩
        · rw [slideBox_eq_advance g d bs b p n h1 h2
            (Bool.not_eq_true _ ▸ h3)]
          have hval2 : validCell g (p.1 + d.1, p.2 + d.2) = true := by
            simp [validCell, h1, h2]
          rcases ih (p.1 + d.1, p.2 + d.2) hval2
              (Bool.not_eq_true _ ▸ h3) with ⟨hv, ho, hrest⟩
          refine ⟨hv, ho, Or.inr ?_⟩
          rcases hrest with heq | hvp
          · rw [heq]
            simpa using hp
          · exact hvp
    · rw [slideBox_eq_stop g d bs b p n
        (Or.inl (Bool.not_eq_true _ ▸ h1))]
      exact ⟨hp, hob, Or.inl rfl⟩

/-- The move preserves the configuration invariant, for any fuel. -/
theorem slideGo_valid (g : Grid) (d : Int × Int) (bs : List Pos)
    (hbs : boxesOK g bs = true) :
    ∀ (fuel : Nat) (p : Pos), validCell g p = true →
      validCell g (slideGo g d bs p fuel).1 = true ∧
      boxesOK g (slideGo g d bs p fuel).2 = true := by
  intro fuel
  induction fuel with
  | zero => exact fun p hp => ⟨hp, hbs⟩
  | succ n ih =>
    intro p hp
    by_cases h1 : inBounds g (p.1 + d.1, p.2 + d.2)
    · by_cases h2 : cellAt g (p.1 + d.1, p.2 + d.2) = '#'
      · rw [slideGo_blocked g d bs p n (Or.inr h2)]
        exact ⟨hp, hbs⟩
      · have hval2 : validCell g (p.1 + d.1, p.2 + d.2) = true := by
          simp [validCell, h1, h2]
        rcases hfind : boxIdAt bs (p.1 + d.1, p.2 + d.2) with _ | b
        · rw [slideGo_eq_nobox g d bs p n h1 h2 hfind]
          exact ih _ hval2
        · rw [slideGo_eq_box g d bs p n b h1 h2 hfind]
          rcases boxIdAt_some hfind with ⟨hblt, hbpos⟩
          rcases boxesOK_iff.mp hbs with ⟨hval, hdist⟩
          have hob : otherBoxAt bs b (p.1 + d.1, p.2 + d.2) = false := by
            rw [otherBoxAt_false_iff]
            intro i hi hib
            rw [← hbpos]
            exact hdist i b hi hblt hib
          rcases slideBox_spec g d bs b (rowsOf g + colsOf g + 1)
              (p.1 + d.1, p.2 + d.2) hval2 hob with ⟨hqv, hqo, hqrest⟩
          set q := slideBox g d bs b (p.1 + d.1, p.2 + d.2)
            (rowsOf g + colsOf g + 1) with hq
          constructor
          · rcases hqrest with heq | hvp
            · show validCell g (q.1 - d.1, q.2 - d.2) = true
              rw [heq]
              simpa using hp
            · exact hvp
          · show boxesOK g (bs.set b q) = true
            rw [boxesOK_iff]
            rw [otherBoxAt_false_iff] at hqo
            have hlen : (bs.set b q).length = bs.length := List.length_set ..
            have hget : ∀ i, i < bs.length →
                (bs.set b q).getD i dp = if b = i then q else bs.getD i dp := by
              intro i hi
              have hi' : i < (bs.set b q).length := by rw [hlen]; exact hi
              rw [List.getD_eq_getElem _ _ hi', List.getElem_set]
              by_cases hbi : b = i
              · rw [if_pos hbi, if_pos hbi]
              · rw [if_neg hbi, if_neg hbi, List.getD_eq_getElem _ _ hi]
            constructor
            · intro i hi
              rw [hlen] at hi
              rw [hget i hi]
              by_cases hbi : b = i
              · rw [if_pos hbi]
                exact hqv
              · rw [if_neg hbi]
                exact hval i hi
            · intro i j hi hj hij
              rw [hlen] at hi hj
              rw [hget i hi, hget j hj]
              by_cases hbi : b = i
              · by_cases hbj : b = j
                · exact absurd (hbi ▸ hbj ▸ rfl : i = j) hij
                · rw [if_pos hbi, if_neg hbj]
                  exact fun hc => hqo j hj (fun hjb => hbj hjb.symm) hc.symm
              · by_cases hbj : b = j
                · rw [if_neg hbi, if_pos hbj]
                  exact hqo i hi fun hib => hbi hib.symm
                · rw [if_neg hbi, if_neg hbj]
                  exact hdist i j hi hj hij
    · rw [slideGo_blocked g d bs p n (Or.inl (Bool.not_eq_true _ ▸ h1))]
      exact ⟨hp, hbs⟩

/-- The move changes at most one box: either the box list is returned
untouched, or exactly one box `b` is replaced by the cell the inner push loop
slides it to, and the robot stops one cell behind that final cell. -/
theorem slideGo_push_shape (g : Grid) (d : Int × Int) (bs : List Pos) :
    ∀ (fuel : Nat) (p : Pos),
      (slideGo g d bs p fuel).2 = bs ∨
      ∃ b, b < bs.length ∧
        (slideGo g d bs p fuel).2 =
          bs.set b (slideBox g d bs b (bs.getD b dp) (rowsOf g + colsOf g + 1)) ∧
        (slideGo g d bs p fuel).1 =
          ((slideBox g d bs b (bs.getD b dp) (rowsOf g + colsOf g + 1)).1 - d.1,
           (slideBox g d bs b (bs.getD b dp) (rowsOf g + colsOf g + 1)).2 - d.2) := by
  intro fuel
  induction fuel with
  | zero => exact fun p => Or.inl rfl
  | succ n ih =>
    intro p
    by_cases h1 : inBounds g (p.1 + d.1, p.2 + d.2)
    · by_cases h2 : cellAt g (p.1 + d.1, p.2 + d.2) = '#'
      · rw [slideGo_blocked g d bs p n (Or.inr h2)]
        exact Or.inl rfl
      · rcases hfind : boxIdAt bs (p.1 + d.1, p.2 + d.2) with _ | b
        · rw [slideGo_eq_nobox g d bs p n h1 h2 hfind]
          exact ih _
        · rw [slideGo_eq_box g d bs p n b h1 h2 hfind]
          rcases boxIdAt_some hfind with ⟨hblt, hbpos⟩
          exact Or.inr ⟨b, hblt, by rw [hbpos], by rw [hbpos]⟩
    · rw [slideGo_blocked g d bs p n (Or.inl (Bool.not_eq_true _ ▸ h1))]
      exact Or.inl rfl

/-! ### Claim theorems about the simulator -/

/-- Claim C10 (confirmed): if the robot is already against a wall or the grid
boundary in direction `d` (its adjacent cell in `d` is off-grid or a wall, so
it is maximally slid and meets no box), `slide_robot_and_box` returns the
configuration unchanged. -/
theorem step_identity_blocked (g : Grid) (p : Pos) (d : Int × Int)
    (bs : List Pos)
    (h : inBounds g (p.1 + d.1, p.2 + d.2) = false ∨
         cellAt g (p.1 + d.1, p.2 + d.2) = '#') :
    slide_robot_and_box g p d bs = (p, bs) :=
  slideGo_blocked g d bs p (rowsOf g + colsOf g) h

/-- 1×4 all-free row used in several concrete evaluations. -/
def g14 : Grid := [['.', '.', '.', '.']]

/-- Witness for C10 on a concrete blocked configuration (robot at the left
edge moving up). -/
theorem step_identity_blocked_witness :
    inBounds g14 (((0 : Int)) + (-1), ((0 : Int)) + 0) = false ∧
    slide_robot_and_box g14 (0, 0) (-1, 0) [(0, 1)] = ((0, 0), [(0, 1)]) :=
  ⟨by decide,
   step_identity_blocked g14 (0, 0) (-1, 0) [(0, 1)] (Or.inl (by decide))⟩

/-- Claim C2 (counterexample): on a 1×4 free row with the robot at `(0,0)`,
one box at `(0,1)` and move right, the chain can advance; the claim predicts
the box advances exactly one cell (to `(0,2)`) and the robot occupies the
vacated cell `(0,1)`.  The simulator instead slides the box to `(0,3)` (two
cells) and stops the robot at `(0,2)`. -/
theorem push_single_cell_cex :
    slide_robot_and_box g14 (0, 0) (0, 1) [(0, 1)] = ((0, 2), [(0, 3)]) ∧
    ((0, 3) : Pos) ≠ (0, 2) ∧ ((0, 2) : Pos) ≠ (0, 1) := by
  refine ⟨by decide, by decide, by decide⟩

/-- Claim C2 (amended): one simulator step performs at most one push: either
no box moves, or exactly one box `b` is replaced by the cell the push loop
slides it to (sliding until blocked by a wall, the boundary or another box),
the robot stops one cell behind that box's final position, and the move ends
after that single push. -/
theorem step_at_most_one_push (g : Grid) (p : Pos) (d : Int × Int)
    (bs : List Pos) :
    (slide_robot_and_box g p d bs).2 = bs ∨
    ∃ b, b < bs.length ∧
      (slide_robot_and_box g p d bs).2 =
        bs.set b (slideBox g d bs b (bs.getD b dp) (rowsOf g + colsOf g + 1)) ∧
      (slide_robot_and_box g p d bs).1 =
        ((slideBox g d bs b (bs.getD b dp) (rowsOf g + colsOf g + 1)).1 - d.1,
         (slideBox g d bs b (bs.getD b dp) (rowsOf g + colsOf g + 1)).2 - d.2) :=
  slideGo_push_shape g d bs (rowsOf g + colsOf g + 1) p

/-- Claim C7 (confirmed): a simulator step from a configuration satisfying
the invariant (robot and boxes on valid cells, no two boxes sharing a cell)
yields a configuration satisfying the invariant. -/
theorem step_preserves_invariant (g : Grid) (d : Int × Int) (p : Pos)
    (bs : List Pos) (hd : d ∈ directions) (hp : validCell g p = true)
    (hbs : boxesOK g bs = true) :
    validCell g (slide_robot_and_box g p d bs).1 = true ∧
    boxesOK g (slide_robot_and_box g p d bs).2 = true :=
  slideGo_valid g d bs hbs (rowsOf g + colsOf g + 1) p hp

/-- 3×3 all-free grid used in several concrete evaluations. -/
def g33 : Grid := [['.', '.', '.'], ['.', '.', '.'], ['.', '.', '.']]

/-! ### The constraint system of `encode_sat_plan` (sat_encoding.py)

The Python function builds a Z3 solver; we embed the constraint system it
emits as a satisfaction predicate: a `SatModel` assigns every Boolean
variable, and `encode_sat_plan` below evaluates the conjunction of exactly
the constraints `solver.add` receives, in the same structure. -/

/-- An assignment to the Boolean variables `RobotAt(t,r,c)`, `BoxAt(t,r,c,b)`
and `Move(t,a)`. -/
structure SatModel where
  robotAt : Nat → Int → Int → Bool
  boxAt : Nat → Int → Int → Nat → Bool
  move : Nat → Nat → Bool

/-- `any_box_at(t, r, c)`: some box among `nb` is at `p` at time `t`. -/
def anyBoxAt (m : SatModel) (nb t : Nat) (p : Pos) : Bool :=
  (List.range nb).any fun b => m.boxAt t p.1 p.2 b

/-- All grid cells in the row-major order the Python loops use. -/
def allCells (g : Grid) : List Pos :=
  (List.range (rowsOf g)).flatMap fun r =>
    (List.range (colsOf g)).map fun c => (Int.ofNat r, Int.ofNat c)

/-- Section 1 of the encoder: at each `t < max_t` at least one direction is
chosen and no two directions are chosen together. -/
def movesOK (T : Nat) (m : SatModel) : Bool :=
  (List.range T).all fun t =>
    ((List.range 4).any fun a => m.move t a) &&
    ((List.range 4).all fun a1 => (List.range 4).all fun a2 =>
      if a1 < a2 then !(m.move t a1 && m.move t a2) else true)

/-- Section 2: the robot is on no obstacle cell, and `PbEq` forces it on
exactly one free cell, at every time step. -/
def robotExclOK (g : Grid) (T : Nat) (m : SatModel) : Bool :=
  (List.range (T + 1)).all fun t =>
    ((allCells g).all fun p =>
      if cellAt g p == '#' then !m.robotAt t p.1 p.2 else true) &&
    ((((allCells g).filter fun p => !(cellAt g p == '#')).countP
        fun p => m.robotAt t p.1 p.2) == 1)

/-- Section 3: each box occupies exactly one free cell, and `AtMost` allows
at most one box per cell, at every time step (skipped with zero boxes). -/
def boxExclOK (g : Grid) (nb T : Nat) (m : SatModel) : Bool :=
  if nb == 0 then true
  else (List.range (T + 1)).all fun t =>
    ((List.range nb).all fun b =>
      ((allCells g).all fun p =>
        if cellAt g p == '#' then !m.boxAt t p.1 p.2 b else true) &&
      ((((allCells g).filter fun p => !(cellAt g p == '#')).countP
          fun p => m.boxAt t p.1 p.2 b) == 1)) &&
    ((allCells g).all fun p =>
      decide (((List.range nb).countP fun b => m.boxAt t p.1 p.2 b) ≤ 1))

/-- Section 4: initial positions of the robot and every box are pinned. -/
def initOK (g : Grid) (start : Pos) (boxes : List Pos) (m : SatModel) : Bool :=
  m.robotAt 0 start.1 start.2 &&
  ((allCells g).all fun p =>
    if p != start && !(cellAt g p == '#') then !m.robotAt 0 p.1 p.2 else true) &&
  ((List.range boxes.length).all fun b =>
    m.boxAt 0 (boxes.getD b dp).1 (boxes.getD b dp).2 b &&
    ((allCells g).all fun p =>
      if p != boxes.getD b dp && !(cellAt g p == '#') then
        !m.boxAt 0 p.1 p.2 b
      else true))

/-- Section 5: the robot is at the goal at time `max_t`. -/
def goalOK (goal : Pos) (T : Nat) (m : SatModel) : Bool :=
  m.robotAt T goal.1 goal.2

/-- The `cells` list of the transition encoder: the straight free run from
`p` in direction `d`, stopping before the first wall or the boundary. -/
def runCells (g : Grid) (d : Int × Int) (p : Pos) : Nat → List Pos
  | 0 => []
  | fuel + 1 =>
    let p2 : Pos := (p.1 + d.1, p.2 + d.2)
    if !inBounds g p2 then []
    else if cellAt g p2 == '#' then []
    else p2 :: runCells g d p2 fuel

/-- `static_slide(r0, c0, dr, dc)`: where the robot stops on a box-free run. -/
def static_slide (g : Grid) (p : Pos) (d : Int × Int) : Nat → Pos
  | 0 => p
  | fuel + 1 =>
    let p2 : Pos := (p.1 + d.1, p.2 + d.2)
    if !inBounds g p2 then p
    else if cellAt g p2 == '#' then p
    else static_slide g p2 d fuel

/-- The box-sliding part of the transition encoder: the statically computed
stop cell of a box pushed from `q` (first wall/boundary, one step back) paired
with the `slide_clear` conjunction, which demands every cell of that slide
path free of boxes at time `t`. -/
def slideClearStop (g : Grid) (m : SatModel) (nb t : Nat) (d : Int × Int)
    (q : Pos) : Nat → Pos × Bool
  | 0 => (q, true)
  | fuel + 1 =>
    let q2 : Pos := (q.1 + d.1, q.2 + d.2)
    if !inBounds g q2 then (q, true)
    else if cellAt g q2 == '#' then (q, true)
    else
      let r := slideClearStop g m nb t d q2 fuel
      (r.1, !anyBoxAt m nb t q2 && r.2)

/-- The per-run push constraints: walking the run with the accumulated
`prev_clear`, for each cell and box the implication
`cond → robot behind the box's original cell ∧ box at its static stop`
plus the frame implications for the other boxes; the second component
collects the disjunction of the `cond`s (the `push_alternatives`). -/
def pushCons (g : Grid) (m : SatModel) (nb t : Nat) (d : Int × Int)
    (moveHere : Bool) : List Pos → Bool → Bool × Bool
  | [], _ => (true, false)
  | q :: rest, prevClear =>
    let sc := slideClearStop g m nb t d q (rowsOf g + colsOf g + 1)
    let inner : Bool := (List.range nb).all fun b =>
      let cond := moveHere && prevClear && m.boxAt t q.1 q.2 b && sc.2
      (!cond || (m.robotAt (t + 1) (q.1 - d.1) (q.2 - d.2) &&
                 m.boxAt (t + 1) sc.1.1 sc.1.2 b)) &&
      ((List.range nb).all fun b2 =>
        if b2 == b then true
        else (allCells g).all fun xy =>
          !(cond && m.boxAt t xy.1 xy.2 b2) || m.boxAt (t + 1) xy.1 xy.2 b2)
    let alts : Bool := (List.range nb).any fun b =>
      moveHere && prevClear && m.boxAt t q.1 q.2 b && sc.2
    let r := pushCons g m nb t d moveHere rest (prevClear && !anyBoxAt m nb t q)
    (inner && r.1, alts || r.2)

/-- The transition constraints for one `(t, cell, direction)` triple: an empty
run forbids choosing the direction there; otherwise the no-box branch
(robot to its static stop, every box framed), the push constraints, and the
completeness constraint `move_here → no_box ∨ any push alternative`. -/
def transCons (g : Grid) (nb : Nat) (m : SatModel) (t : Nat) (p : Pos)
    (a : Nat) : Bool :=
  let d := directions.getD a (0, 0)
  let cells := runCells g d p (rowsOf g + colsOf g + 1)
  let moveHere := m.robotAt t p.1 p.2 && m.move t a
  if cells.isEmpty then !moveHere
  else
    let noBox := cells.all fun q2 => !anyBoxAt m nb t q2
    let dst := static_slide g p d (rowsOf g + colsOf g + 1)
    let stayNB : Bool := (List.range nb).all fun b =>
      (allCells g).all fun xy =>
        !(moveHere && noBox && m.boxAt t xy.1 xy.2 b) ||
        m.boxAt (t + 1) xy.1 xy.2 b
    let robNB : Bool := !(moveHere && noBox) || m.robotAt (t + 1) dst.1 dst.2
    let pc := pushCons g m nb t d moveHere cells true
    stayNB && robNB && pc.1 && (!moveHere || (noBox || pc.2))

/-- Section 7: transition constraints for every time, free cell, direction. -/
def transOK (g : Grid) (nb T : Nat) (m : SatModel) : Bool :=
  (List.range T).all fun t => (allCells g).all fun p =>
    if cellAt g p == '#' then true
    else (List.range 4).all fun a => transCons g nb m t p a

/-- `m` satisfies every constraint `encode_sat_plan` adds to the solver. -/
def encode_sat_plan (g : Grid) (start goal : Pos) (boxes : List Pos)
    (max_t : Nat) (m : SatModel) : Bool :=
  movesOK max_t m && robotExclOK g max_t m &&
  boxExclOK g boxes.length max_t m && initOK g start boxes m &&
  goalOK goal max_t m && transOK g boxes.length max_t m

/-! ### The decoder `plan_sat` (sat_planner.py) and the replay -/

/-- The extraction loop of `plan_sat`: for each `t` and each row, the first
column where the robot indicator holds is appended (the Python `break` leaves
only the inner column loop). -/
def plan_sat (m : SatModel) (max_t : Nat) (grid_size : Nat × Nat)
    (num_boxes : Nat) : List Pos × List (List Pos) :=
  let path := (List.range (max_t + 1)).flatMap fun t =>
    (List.range grid_size.1).filterMap fun r =>
      ((List.range grid_size.2).find? fun c =>
        m.robotAt t (Int.ofNat r) (Int.ofNat c)).map fun c =>
          (Int.ofNat r, Int.ofNat c)
  let box_paths := (List.range num_boxes).map fun b =>
    (List.range (max_t + 1)).flatMap fun t =>
      (List.range grid_size.1).filterMap fun r =>
        ((List.range grid_size.2).find? fun c =>
          m.boxAt t (Int.ofNat r) (Int.ofNat c) b).map fun c =>
            (Int.ofNat r, Int.ofNat c)
  (path, box_paths)

/-- The directions a model chooses, one per time step. -/
def chosenDirs (m : SatModel) (T : Nat) : List Nat :=
  (List.range T).map fun t => ((List.range 4).find? fun a => m.move t a).getD 0

/-- Replaying a direction sequence through the simulator from the initial
configuration: the resulting configuration sequence. -/
def replayConfigs (g : Grid) (p : Pos) (bs : List Pos) :
    List Nat → List (Pos × List Pos)
  | [] => [(p, bs)]
  | a :: rest =>
    let s := slide_robot_and_box g p (directions.getD a (0, 0)) bs
    (p, bs) :: replayConfigs g s.1 s.2 rest

/-- The robot-position sequence of the replay. -/
def replayRobotPath (g : Grid) (p : Pos) (bs : List Pos)
    (dirs : List Nat) : List Pos :=
  (replayConfigs g p bs dirs).map (·.1)

/-! ### Extraction lemmas for the encoder's constraint families -/

theorem runCells_succ (g : Grid) (d : Int × Int) (p : Pos) (n : Nat) :
    runCells g d p (n + 1) =
      if !inBounds g (p.1 + d.1, p.2 + d.2) then []
      else if cellAt g (p.1 + d.1, p.2 + d.2) == '#' then []
      else (p.1 + d.1, p.2 + d.2) :: runCells g d (p.1 + d.1, p.2 + d.2) n :=
  rfl

theorem static_slide_succ (g : Grid) (p : Pos) (d : Int × Int) (n : Nat) :
    static_slide g p d (n + 1) =
      if !inBounds g (p.1 + d.1, p.2 + d.2) then p
      else if cellAt g (p.1 + d.1, p.2 + d.2) == '#' then p
      else static_slide g (p.1 + d.1, p.2 + d.2) d n :=
  rfl

theorem slideClearStop_succ (g : Grid) (m : SatModel) (nb t : Nat)
    (d : Int × Int) (q : Pos) (n : Nat) :
    slideClearStop g m nb t d q (n + 1) =
      if !inBounds g (q.1 + d.1, q.2 + d.2) then (q, true)
      else if cellAt g (q.1 + d.1, q.2 + d.2) == '#' then (q, true)
      else
        ((slideClearStop g m nb t d (q.1 + d.1, q.2 + d.2) n).1,
         !anyBoxAt m nb t (q.1 + d.1, q.2 + d.2) &&
           (slideClearStop g m nb t d (q.1 + d.1, q.2 + d.2) n).2) :=
  rfl

/-- The stop cell the transition encoder computes for a pushed box is exactly
the static slide stop (boxes on the way only make `slide_clear` false, they
never shorten the stop). -/
theorem slideClearStop_fst (g : Grid) (m : SatModel) (nb t : Nat)
    (d : Int × Int) :
    ∀ (fuel : Nat) (q : Pos),
      (slideClearStop g m nb t d q fuel).1 = static_slide g q d fuel := by
  intro fuel
  induction fuel with
  | zero => intro q; rfl
  | succ n ih =>
    intro q
    rw [slideClearStop_succ, static_slide_succ]
    by_cases h1 : inBounds g (q.1 + d.1, q.2 + d.2)
    · by_cases h2 : cellAt g (q.1 + d.1, q.2 + d.2) = '#'
      · simp [h1, h2]
      · simp [h1, h2, ih]
    · simp [h1]

/-- An empty run means the very first step is off-grid or a wall. -/
theorem runCells_nil {g : Grid} {d : Int × Int} {p : Pos} {n : Nat}
    (h : runCells g d p (n + 1) = []) :
    inBounds g (p.1 + d.1, p.2 + d.2) = false ∨
    cellAt g (p.1 + d.1, p.2 + d.2) = '#' := by
  by_cases h1 : inBounds g (p.1 + d.1, p.2 + d.2)
  · by_cases h2 : cellAt g (p.1 + d.1, p.2 + d.2) = '#'
    · exact Or.inr h2
    · rw [runCells_succ] at h
      simp [h1, h2] at h
  · exact Or.inl (Bool.not_eq_true _ ▸ h1)

theorem encode_parts {g : Grid} {start goal : Pos} {boxes : List Pos}
    {T : Nat} {m : SatModel}
    (h : encode_sat_plan g start goal boxes T m = true) :
    movesOK T m = true ∧ robotExclOK g T m = true ∧
    boxExclOK g boxes.length T m = true ∧ initOK g start boxes m = true ∧
    goalOK goal T m = true ∧ transOK g boxes.length T m = true := by
  simpa [encode_sat_plan, Bool.and_eq_true, and_assoc] using h

theorem mem_allCells {g : Grid} {p : Pos} (h : inBounds g p = true) :
    p ∈ allCells g := by
  obtain ⟨r, c⟩ := p
  simp only [inBounds, Bool.and_eq_true, decide_eq_true_eq] at h
  obtain ⟨⟨⟨h1, h2⟩, h3⟩, h4⟩ := h
  have hr : r.toNat < rowsOf g := by omega
  have hc : c.toNat < colsOf g := by omega
  have hmem : (Int.ofNat r.toNat, Int.ofNat c.toNat) ∈ allCells g :=
    List.mem_flatMap.mpr ⟨r.toNat, List.mem_range.mpr hr,
      List.mem_map.mpr ⟨c.toNat, List.mem_range.mpr hc, rfl⟩⟩
  have hreq : Int.ofNat r.toNat = r := Int.toNat_of_nonneg h1
  have hceq : Int.ofNat c.toNat = c := Int.toNat_of_nonneg h3
  rwa [hreq, hceq] at hmem

theorem transCons_of_transOK {g : Grid} {nb T : Nat} {m : SatModel}
    {t : Nat} {p : Pos} {a : Nat}
    (h : transOK g nb T m = true) (ht : t < T) (hp : p ∈ allCells g)
    (hfree : cellAt g p ≠ '#') (ha : a < 4) :
    transCons g nb m t p a = true := by
  simp only [transOK, List.all_eq_true, List.mem_range] at h
  have h2 := h t ht p hp
  rw [if_neg (by simp [hfree])] at h2
  exact List.all_eq_true.mp h2 a (List.mem_range.mpr ha)

/-- At a free cell whose run in direction `a` is empty, the constraints
forbid every model from choosing that direction while the robot is there. -/
theorem encode_empty_run_forbids {g : Grid} {start goal : Pos}
    {boxes : List Pos} {T : Nat} {m : SatModel} {t : Nat} {p : Pos} {a : Nat}
    (hok : encode_sat_plan g start goal boxes T m = true)
    (ht : t < T) (hin : inBounds g p = true) (hfree : cellAt g p ≠ '#')
    (ha : a < 4)
    (hrun : runCells g (directions.getD a (0, 0)) p
      (rowsOf g + colsOf g + 1) = []) :
    ¬(m.robotAt t p.1 p.2 = true ∧ m.move t a = true) := by
  have htc := transCons_of_transOK (encode_parts hok).2.2.2.2.2 ht
    (mem_allCells hin) hfree ha
  simp only [transCons, hrun, List.isEmpty_nil, if_true] at htc
  rintro ⟨h1, h2⟩
  simp [h1, h2] at htc

/-- A start on a wall cell makes the constraint system unsatisfiable: the
initial constraint asserts the robot there while the exclusivity constraints
deny every wall cell. -/
theorem encode_wall_start_false {g : Grid} {start goal : Pos}
    {boxes : List Pos} {T : Nat} {m : SatModel}
    (hin : inBounds g start = true) (hwall : cellAt g start = '#') :
    encode_sat_plan g start goal boxes T m = false := by
  cases hok : encode_sat_plan g start goal boxes T m with
  | false => rfl
  | true =>
    exfalso
    have hinit := (encode_parts hok).2.2.2.1
    simp only [initOK, Bool.and_eq_true] at hinit
    have hrob : m.robotAt 0 start.1 start.2 = true := hinit.1.1
    have hex := (encode_parts hok).2.1
    simp only [robotExclOK, List.all_eq_true, List.mem_range] at hex
    have h0 := hex 0 (Nat.succ_pos T)
    rw [Bool.and_eq_true] at h0
    obtain ⟨hwalls, _⟩ := h0
    have hw := List.all_eq_true.mp hwalls start (mem_allCells hin)
    rw [if_pos (by simp [hwall])] at hw
    simp [hrob] at hw

/-- Extracting a push alternative: if the per-run push constraints hold and
some alternative fires, then some run cell `i` with a box-free prefix holds a
box `b` whose slide path is box-free, and the effect and frame constraints
for that push hold in the model. -/
theorem pushCons_extract (g : Grid) (m : SatModel) (nb t : Nat)
    (d : Int × Int) (mh : Bool) :
    ∀ (cells : List Pos) (pc : Bool),
      (pushCons g m nb t d mh cells pc).1 = true →
      (pushCons g m nb t d mh cells pc).2 = true →
      ∃ i, i < cells.length ∧ ∃ b, b < nb ∧
        mh = true ∧ pc = true ∧
        (cells.take i).all (fun q => !anyBoxAt m nb t q) = true ∧
        m.boxAt t (cells.getD i dp).1 (cells.getD i dp).2 b = true ∧
        (slideClearStop g m nb t d (cells.getD i dp)
          (rowsOf g + colsOf g + 1)).2 = true ∧
        m.robotAt (t + 1) ((cells.getD i dp).1 - d.1)
          ((cells.getD i dp).2 - d.2) = true ∧
        m.boxAt (t + 1)
          (slideClearStop g m nb t d (cells.getD i dp)
            (rowsOf g + colsOf g + 1)).1.1
          (slideClearStop g m nb t d (cells.getD i dp)
            (rowsOf g + colsOf g + 1)).1.2 b = true ∧
        (∀ b2, b2 < nb → b2 ≠ b → ∀ q ∈ allCells g,
          m.boxAt t q.1 q.2 b2 = true → m.boxAt (t + 1) q.1 q.2 b2 = true) := by
  intro cells
  induction cells with
  | nil => intro pc _ halt; simp [pushCons] at halt
  | cons q rest ih =>
    intro pc hcons halt
    rw [show pushCons g m nb t d mh (q :: rest) pc =
      (let sc := slideClearStop g m nb t d q (rowsOf g + colsOf g + 1)
       let inner : Bool := (List.range nb).all fun b =>
         let cond := mh && pc && m.boxAt t q.1 q.2 b && sc.2
         (!cond || (m.robotAt (t + 1) (q.1 - d.1) (q.2 - d.2) &&
                    m.boxAt (t + 1) sc.1.1 sc.1.2 b)) &&
         ((List.range nb).all fun b2 =>
           if b2 == b then true
           else (allCells g).all fun xy =>
             !(cond && m.boxAt t xy.1 xy.2 b2) || m.boxAt (t + 1) xy.1 xy.2 b2)
       let alts : Bool := (List.range nb).any fun b =>
         mh && pc && m.boxAt t q.1 q.2 b && sc.2
       let r := pushCons g m nb t d mh rest (pc && !anyBoxAt m nb t q)
       (inner && r.1, alts || r.2)) from rfl] at hcons halt
    simp only [Bool.and_eq_true, Bool.or_eq_true] at hcons halt
    obtain ⟨hinner, hrest⟩ := hcons
    rcases halt with halt | hralt
    · -- an alternative fires at the head cell
      rw [List.any_eq_true] at halt
      obtain ⟨b, hbmem, hcond⟩ := halt
      rw [List.mem_range] at hbmem
      have hcond' := hcond
      simp only [Bool.and_eq_true] at hcond'
      obtain ⟨⟨⟨hmh, hpc⟩, hbox⟩, hsc⟩ := hcond'
      have hb := List.all_eq_true.mp hinner b (List.mem_range.mpr hbmem)
      simp only [Bool.and_eq_true] at hb
      obtain ⟨heff, hstay⟩ := hb
      rw [Bool.or_eq_true] at heff
      rcases heff with heff | heff
      · rw [Bool.not_eq_true'] at heff
        rw [hcond] at heff
        exact absurd heff (by simp)
      · simp only [Bool.and_eq_true] at heff
        refine ⟨0, Nat.succ_pos _, b, hbmem, hmh, hpc, by simp,
          by simpa using hbox, by simpa using hsc,
          by simpa using heff.1, by simpa using heff.2, ?_⟩
        intro b2 hb2 hne xy hxy hbox2
        have h2 := List.all_eq_true.mp hstay b2 (List.mem_range.mpr hb2)
        rw [if_neg (by simp [hne])] at h2
        have h3 := List.all_eq_true.mp h2 xy hxy
        rw [Bool.or_eq_true] at h3
        rcases h3 with h3 | h3
        · rw [Bool.not_eq_true'] at h3
          rw [hcond] at h3
          simp [hbox2] at h3
        · exact h3
    · -- an alternative fires further down the run
      obtain ⟨i, hilen, b, hb, hmh, hpc, hpre, hrest'⟩ := ih _ hrest hralt
      simp only [Bool.and_eq_true] at hpc
      refine ⟨i + 1, by simpa using hilen, b, hb, hmh, hpc.1, ?_, ?_⟩
      · simp only [List.take_succ_cons, List.all_cons, Bool.and_eq_true]
        exact ⟨hpc.2, hpre⟩
      · simpa [List.getD_cons_succ] using hrest'

/-- A satisfying model of the horizon-1 instance on `g14` with start and goal
`(0,0)` and one box at `(0,1)`: the move right is chosen, the box ends at
`(0,3)`, the robot stays at `(0,0)` — exactly what the encoder's push
constraint `RobotAt(t+1, bx-dr, by-dc)` demands. -/
def m0 : SatModel where
  robotAt := fun t r c => (r == 0) && (c == 0) && (t == 0 || t == 1)
  boxAt := fun t r c b => (b == 0) && (r == 0) &&
    ((t == 0 && c == 1) || (t == 1 && c == 3))
  move := fun t a => (t == 0) && (a == 3)

/-- Claim C1 (code bug, evaluation at the failing input): `m0` satisfies every
constraint of the horizon-1 encoding, the decoder extracts the robot path
`[(0,0),(0,0)]`, but replaying the chosen direction (right) through
`slide_robot_and_box` yields `[(0,0),(0,2)]`: the encoder stops the robot
behind the pushed box's original cell, the simulator behind its final cell,
so decoded and replayed trajectories disagree at timestep 1. -/
theorem encoder_decoder_replay_disagree :
    encode_sat_plan g14 (0, 0) (0, 0) [(0, 1)] 1 m0 = true ∧
    (plan_sat m0 1 (1, 4) 1).1 = [(0, 0), (0, 0)] ∧
    replayRobotPath g14 (0, 0) [(0, 1)] (chosenDirs m0 1) =
      [(0, 0), (0, 2)] ∧
    ([(0, 0), (0, 0)] : List Pos) ≠ [(0, 0), (0, 2)] :=
  ⟨by decide, by decide, by decide, by decide⟩

/-- Claim C3 (counterexample): in the same satisfying model the robot is at
`(0,0)` with direction right chosen at `t = 0`, the run `(0,1),(0,2),(0,3)` is
nonempty and holds a box, yet at `t+1` the robot is neither at the static
slide stop `(0,3)` (the claimed no-box branch) nor at `(0,2)`, the cell
immediately before the pushed box's stop cell `(0,3)` (the claimed push
branch): the constraints do not force the claimed disjunction. -/
theorem trans_branch_cex :
    encode_sat_plan g14 (0, 0) (0, 0) [(0, 1)] 1 m0 = true ∧
    m0.robotAt 0 0 0 = true ∧ m0.move 0 3 = true ∧
    runCells g14 (0, 1) (0, 0) (rowsOf g14 + colsOf g14 + 1) =
      [(0, 1), (0, 2), (0, 3)] ∧
    m0.boxAt 0 0 1 0 = true ∧
    m0.robotAt 1 0 3 = false ∧ m0.robotAt 1 0 2 = false ∧
    m0.robotAt 1 0 0 = true :=
  ⟨by decide, by decide, by decide, by decide, by decide, by decide,
   by decide, by decide⟩

/-- The transition branch the constraints actually force when the run is
box-free: the robot's `t+1` indicator at its static slide stop holds and
every box's position indicator carries over unchanged. -/
def noBoxBranch (g : Grid) (nb : Nat) (m : SatModel) (t : Nat) (p : Pos)
    (d : Int × Int) : Prop :=
  (runCells g d p (rowsOf g + colsOf g + 1)).all
    (fun q => !anyBoxAt m nb t q) = true ∧
  m.robotAt (t + 1) (static_slide g p d (rowsOf g + colsOf g + 1)).1
    (static_slide g p d (rowsOf g + colsOf g + 1)).2 = true ∧
  ∀ b, b < nb → ∀ q ∈ allCells g,
    m.boxAt t q.1 q.2 b = true → m.boxAt (t + 1) q.1 q.2 b = true

/-- The push branch the constraints actually force: some run cell with a
box-free prefix holds a box whose whole static slide path is box-free of the
other boxes (`slide_clear`); that box's `t+1` indicator is at its *static*
slide stop — first wall/boundary, one step back, other boxes never shorten
the slide — the robot's `t+1` indicator is one cell behind the box's
*original* cell, and every other box carries over unchanged. -/
def pushBranch (g : Grid) (nb : Nat) (m : SatModel) (t : Nat) (p : Pos)
    (d : Int × Int) : Prop :=
  let cells := runCells g d p (rowsOf g + colsOf g + 1)
  cells.all (fun q => !anyBoxAt m nb t q) = false ∧
  ∃ i, i < cells.length ∧ ∃ b, b < nb ∧
    (cells.take i).all (fun q => !anyBoxAt m nb t q) = true ∧
    m.boxAt t (cells.getD i dp).1 (cells.getD i dp).2 b = true ∧
    (slideClearStop g m nb t d (cells.getD i dp)
      (rowsOf g + colsOf g + 1)).2 = true ∧
    m.robotAt (t + 1) ((cells.getD i dp).1 - d.1)
      ((cells.getD i dp).2 - d.2) = true ∧
    m.boxAt (t + 1)
      (static_slide g (cells.getD i dp) d (rowsOf g + colsOf g + 1)).1
      (static_slide g (cells.getD i dp) d (rowsOf g + colsOf g + 1)).2
      b = true ∧
    ∀ b2, b2 < nb → b2 ≠ b → ∀ q ∈ allCells g,
      m.boxAt t q.1 q.2 b2 = true → m.boxAt (t + 1) q.1 q.2 b2 = true

/-- Claim C3 (amended): in every satisfying model, whenever the robot is on a
free cell at `t < T` and direction `a` is chosen, the run is nonempty and
exactly one of the two branches the code encodes holds: the box-free branch
(`noBoxBranch`: robot to the static stop, all boxes framed) or the push
branch (`pushBranch`: first box with box-free prefix *and box-free slide
path* pushed to its static wall stop, robot one cell behind the box's
original cell, other boxes framed).  A push whose slide path contains
another box satisfies neither branch, so such moves are forbidden outright
rather than encoded as stopping against that box. -/
theorem trans_branch_forced (g : Grid) (start goal : Pos) (boxes : List Pos)
    (T : Nat) (m : SatModel) (t : Nat) (p : Pos) (a : Nat)
    (hok : encode_sat_plan g start goal boxes T m = true)
    (ht : t < T) (hin : inBounds g p = true) (hfree : cellAt g p ≠ '#')
    (ha : a < 4)
    (hrob : m.robotAt t p.1 p.2 = true) (hmv : m.move t a = true) :
    runCells g (directions.getD a (0, 0)) p (rowsOf g + colsOf g + 1) ≠ [] ∧
    (noBoxBranch g boxes.length m t p (directions.getD a (0, 0)) ∨
     pushBranch g boxes.length m t p (directions.getD a (0, 0))) ∧
    ¬(noBoxBranch g boxes.length m t p (directions.getD a (0, 0)) ∧
      pushBranch g boxes.length m t p (directions.getD a (0, 0))) := by
  have htc := transCons_of_transOK (encode_parts hok).2.2.2.2.2 ht
    (mem_allCells hin) hfree ha
  simp only [transCons] at htc
  by_cases hemp :
      (runCells g (directions.getD a (0, 0)) p
        (rowsOf g + colsOf g + 1)).isEmpty
  · rw [if_pos hemp] at htc
    rw [Bool.not_eq_true'] at htc
    rw [hrob, hmv] at htc
    simp at htc
  · rw [if_neg hemp] at htc
    rw [Bool.not_eq_true] at hemp
    have hne := List.isEmpty_eq_false.mp hemp
    refine ⟨hne, ?_⟩
    simp only [Bool.and_eq_true] at htc
    obtain ⟨⟨⟨hstay, hrb⟩, hpc1⟩, hcompl⟩ := htc
    rw [Bool.or_eq_true] at hcompl
    rcases hcompl with hcompl | hcompl
    · rw [Bool.not_eq_true'] at hcompl
      rw [hrob, hmv] at hcompl
      simp at hcompl
    · rw [Bool.or_eq_true] at hcompl
      rcases hcompl with hnb | hpush
      · -- box-free branch
        have hrdst : m.robotAt (t + 1)
            (static_slide g p (directions.getD a (0, 0))
              (rowsOf g + colsOf g + 1)).1
            (static_slide g p (directions.getD a (0, 0))
              (rowsOf g + colsOf g + 1)).2 = true := by
          rw [Bool.or_eq_true] at hrb
          rcases hrb with hrb | hrb
          · rw [Bool.not_eq_true'] at hrb
            rw [hrob, hmv, hnb] at hrb
            simp at hrb
          · exact hrb
        have hframe : ∀ b, b < boxes.length → ∀ q ∈ allCells g,
            m.boxAt t q.1 q.2 b = true → m.boxAt (t + 1) q.1 q.2 b = true := by
          intro b hb q hq hbox
          have h1 := List.all_eq_true.mp hstay b (List.mem_range.mpr hb)
          have h2 := List.all_eq_true.mp h1 q hq
          rw [Bool.or_eq_true] at h2
          rcases h2 with h2 | h2
          · rw [Bool.not_eq_true'] at h2
            rw [hrob, hmv, hnb, hbox] at h2
            simp at h2
          · exact h2
        have hnbb : noBoxBranch g boxes.length m t p
            (directions.getD a (0, 0)) := ⟨hnb, hrdst, hframe⟩
        refine ⟨Or.inl hnbb, ?_⟩
        rintro ⟨_, hpb⟩
        simp only [pushBranch] at hpb
        rw [hnb] at hpb
        exact absurd hpb.1 (by simp)
      · -- push branch
        obtain ⟨i, hilen, b, hb, _, _, hpre, hbox, hsc, hrnext, hbstop,
          hframe⟩ := pushCons_extract g m boxes.length t
            (directions.getD a (0, 0))
            (m.robotAt t p.1 p.2 && m.move t a) _ true hpc1 hpush
        have hmemcell : (runCells g (directions.getD a (0, 0)) p
            (rowsOf g + colsOf g + 1)).getD i dp ∈
            runCells g (directions.getD a (0, 0)) p
              (rowsOf g + colsOf g + 1) := by
          rw [List.getD_eq_getElem _ _ hilen]
          exact List.getElem_mem hilen
        have hany : anyBoxAt m boxes.length t
            ((runCells g (directions.getD a (0, 0)) p
              (rowsOf g + colsOf g + 1)).getD i dp) = true :=
          List.any_eq_true.mpr ⟨b, List.mem_range.mpr hb, hbox⟩
        have hnb : (runCells g (directions.getD a (0, 0)) p
            (rowsOf g + colsOf g + 1)).all
            (fun q => !anyBoxAt m boxes.length t q) = false := by
          cases hall : (runCells g (directions.getD a (0, 0)) p
              (rowsOf g + colsOf g + 1)).all
              (fun q => !anyBoxAt m boxes.length t q) with
          | false => rfl
          | true =>
            have := List.all_eq_true.mp hall _ hmemcell
            rw [hany] at this
            exact absurd this (by simp)
        have hpb : pushBranch g boxes.length m t p
            (directions.getD a (0, 0)) := by
          simp only [pushBranch]
          refine ⟨hnb, i, hilen, b, hb, hpre, hbox, hsc, hrnext, ?_, hframe⟩
          rw [← slideClearStop_fst g m boxes.length t
            (directions.getD a (0, 0)) (rowsOf g + colsOf g + 1)]
          exact hbstop
        refine ⟨Or.inr hpb, ?_⟩
        rintro ⟨hnbb, _⟩
        rw [hnbb.1] at hnb
        exact absurd hnb (by simp)

/-- Witness for C7 on a concrete configuration with a push. -/
theorem step_preserves_invariant_witness :
    ((1, 0) : Int × Int) ∈ directions ∧
    validCell g33 (0, 1) = true ∧ boxesOK g33 [(1, 1), (2, 0)] = true ∧
    validCell g33 (slide_robot_and_box g33 (0, 1) (1, 0) [(1, 1), (2, 0)]).1
      = true ∧
    boxesOK g33 (slide_robot_and_box g33 (0, 1) (1, 0) [(1, 1), (2, 0)]).2
      = true :=
  ⟨by decide, by decide, by decide,
   (step_preserves_invariant g33 (1, 0) (0, 1) [(1, 1), (2, 0)]
     (by decide) (by decide) (by decide)).1,
   (step_preserves_invariant g33 (1, 0) (0, 1) [(1, 1), (2, 0)]
     (by decide) (by decide) (by decide)).2⟩

/-- Witness for C3's amended transition characterization on the concrete
satisfying model `m0`. -/
theorem trans_branch_forced_witness :
    runCells g14 (directions.getD 3 (0, 0)) (0, 0)
      (rowsOf g14 + colsOf g14 + 1) ≠ [] ∧
    (noBoxBranch g14 1 m0 0 (0, 0) (directions.getD 3 (0, 0)) ∨
     pushBranch g14 1 m0 0 (0, 0) (directions.getD 3 (0, 0))) ∧
    ¬(noBoxBranch g14 1 m0 0 (0, 0) (directions.getD 3 (0, 0)) ∧
      pushBranch g14 1 m0 0 (0, 0) (directions.getD 3 (0, 0))) :=
  trans_branch_forced g14 (0, 0) (0, 0) [(0, 1)] 1 m0 0 (0, 0) 3
    (by decide) (by decide) (by decide) (by decide) (by decide)
    (by decide) (by decide)

/-- Claim C4 (amended): at a free cell with zero reachable cells in the
chosen direction the simulator returns the configuration unchanged, but the
encoder does not admit such a choice: it adds
`Not(And(RobotAt, Move))`, so no satisfying model has the robot there with
that direction chosen, at any `t < T`. -/
theorem blocked_move_identity_yet_forbidden (g : Grid) (p : Pos)
    (bs : List Pos) (a : Nat) (start goal : Pos) (boxes : List Pos)
    (T t : Nat) (ha : a < 4) (ht : t < T) (hin : inBounds g p = true)
    (hfree : cellAt g p ≠ '#')
    (hrun : runCells g (directions.getD a (0, 0)) p
      (rowsOf g + colsOf g + 1) = []) :
    slide_robot_and_box g p (directions.getD a (0, 0)) bs = (p, bs) ∧
    ∀ m : SatModel, encode_sat_plan g start goal boxes T m = true →
      ¬(m.robotAt t p.1 p.2 = true ∧ m.move t a = true) := by
  constructor
  · exact slideGo_blocked g (directions.getD a (0, 0)) bs p
      (rowsOf g + colsOf g) (runCells_nil hrun)
  · intro m hm
    exact encode_empty_run_forbids hm ht hin hfree ha hrun

/-- Witness for C4's amended theorem: robot at the left edge of `g14`,
direction left. -/
theorem blocked_move_identity_yet_forbidden_witness :
    slide_robot_and_box g14 (0, 0) (directions.getD 2 (0, 0)) [(0, 1)] =
      ((0, 0), [(0, 1)]) ∧
    ∀ m : SatModel, encode_sat_plan g14 (0, 0) (0, 3) [] 1 m = true →
      ¬(m.robotAt 0 0 0 = true ∧ m.move 0 2 = true) :=
  blocked_move_identity_yet_forbidden g14 (0, 0) [(0, 1)] 2 (0, 0) (0, 3)
    [] 1 0 (by decide) (by decide) (by decide) (by decide) (by decide)

/-- Claim C4 (counterexample): on the 1×1 grid every direction has zero
reachable cells, so the claimed identity models do not exist — in fact the
whole constraint system is unsatisfiable, because one direction must be
chosen per step while every choice is forbidden. -/
theorem blocked_move_admits_no_model_cex :
    ¬∃ m : SatModel, encode_sat_plan [['.']] (0, 0) (0, 0) [] 1 m = true := by
  rintro ⟨m, hm⟩
  have hmvs := (encode_parts hm).1
  simp only [movesOK, List.all_eq_true, List.mem_range] at hmvs
  have hm0 := hmvs 0 Nat.one_pos
  rw [Bool.and_eq_true] at hm0
  obtain ⟨hany, _⟩ := hm0
  rw [List.any_eq_true] at hany
  obtain ⟨a, hamem, hmove⟩ := hany
  rw [List.mem_range] at hamem
  have hinit := (encode_parts hm).2.2.2.1
  simp only [initOK, Bool.and_eq_true] at hinit
  have hrob : m.robotAt 0 0 0 = true := hinit.1.1
  have hforbid := encode_empty_run_forbids (p := ((0 : Int), (0 : Int)))
    hm Nat.one_pos (by decide) (by decide) hamem ?_
  · exact hforbid ⟨hrob, hmove⟩
  · interval_cases a <;> decide

/-- Claim C6 (amended): no input validation exists; with the start on a wall
cell the encoder still pins the robot there at `t = 0` while exclusivity
denies every wall cell, so the constraint system is unsatisfiable — invalid
input surfaces as a silent no-solution, never as an immediate rejection. -/
theorem invalid_start_silent_unsat (g : Grid) (start goal : Pos)
    (boxes : List Pos) (T : Nat) (hin : inBounds g start = true)
    (hwall : cellAt g start = '#') :
    ∀ m : SatModel, encode_sat_plan g start goal boxes T m = false :=
  fun _ => encode_wall_start_false hin hwall

/-- 1×2 grid whose left cell is a wall, used for the invalid-input claims. -/
def gw : Grid := [['#', '.']]

/-- The everywhere-false assignment. -/
def mF : SatModel where
  robotAt := fun _ _ _ => false
  boxAt := fun _ _ _ _ => false
  move := fun _ _ => false

/-- Witness for C6's amended theorem on a concrete wall-start instance. -/
theorem invalid_start_silent_unsat_witness :
    inBounds gw (0, 0) = true ∧ cellAt gw (0, 0) = '#' ∧
    encode_sat_plan gw (0, 0) (0, 1) [] 1 mF = false :=
  ⟨by decide, by decide,
   invalid_start_silent_unsat gw (0, 0) (0, 1) [] 1 (by decide) (by decide) mF⟩

/-! ### The breadth-first search `plan_bfs` (search_planner.py) -/

/-- Lexicographic comparison of cells, as Python compares `(row, col)`
tuples. -/
def posLe (p q : Pos) : Bool :=
  decide (p.1 < q.1) || ((p.1 == q.1) && decide (p.2 ≤ q.2))

/-- Insert into a lexicographically sorted cell list. -/
def insertPos (p : Pos) : List Pos → List Pos
  | [] => [p]
  | q :: rest => if posLe p q then p :: q :: rest else q :: insertPos p rest

/-- `tuple(sorted(box_positions))`: the canonical sorted box tuple stored by
`State` (insertion sort; the lexicographic order on cells is total and
antisymmetric, so the nondecreasing rearrangement Python's `sorted` returns
is unique and this computes it). -/
def sortBoxes : List Pos → List Pos
  | [] => []
  | p :: rest => insertPos p (sortBoxes rest)

/-- A visited-set key: robot cell plus canonical box tuple.  (`State` hashes
exactly this pair and `plan_bfs` stores the hashes; the embedding stores the
pair itself, i.e. reads the hash as collision-free.) -/
abbrev Key := Pos × List Pos

/-- One BFS successor: simulate the move, then re-canonicalise (the `State`
constructor sorts its boxes). -/
def succKey (g : Grid) (k : Key) (a : Nat) : Key :=
  let s := slide_robot_and_box g k.1 (directions.getD a (0, 0)) k.2
  (s.1, sortBoxes s.2)

/-- A search node: its key plus the key chain from the root to it (the
embedding of the `parent` pointers). -/
structure Node where
  key : Key
  path : List Key

def Node.depth (nd : Node) : Nat := nd.path.length - 1

/-- `reconstruct_path`: robot positions along the chain, and for each box
index the per-time positions of the b-th cell of the sorted box tuple. -/
def reconstruct_path (states : List Key) : List Pos × List (List Pos) :=
  (states.map fun s => s.1,
   (List.range (states.headD ((0, 0), [])).2.length).map fun b =>
     states.map fun s => s.2.getD b dp)

/-! #### CPython hashing

`plan_bfs` keys its visited set by `hash(state)`, where `State.__hash__`
returns `hash((self.robot_pos, self.boxes))`: the set stores 64-bit hash
*values*, not states, so two distinct states with colliding hashes are
conflated.  To embed this faithfully we implement CPython's hash for ints
(reduction modulo 2^61 - 1, longobject.c) and for tuples (the xxHash-based
`tuplehash` of tupleobject.c, CPython >= 3.8) over `Nat` with explicit
`% 2^64`.  Hashing of ints and tuples of ints is not randomised by
`PYTHONHASHSEED`, so these are fixed functions, reproduced bit-exactly
(validated against CPython 3.11 on the concrete keys used below). -/

/-- `_PyHASH_MODULUS = 2^61 - 1`. -/
def pyHashModulus : Nat := 2 ^ 61 - 1

/-- CPython's hash of an int (`long_hash`): the magnitude reduced modulo
`2^61 - 1`, with the sign reapplied and the reserved value `-1` mapped to
`-2`. -/
def pyHashInt (n : Int) : Int :=
  if 0 ≤ n then n % (pyHashModulus : Int)
  else
    let x : Int := -((-n) % (pyHashModulus : Int))
    if x = -1 then -2 else x

def u64 : Nat := 2 ^ 64

def xxPrime1 : Nat := 11400714785074694791

def xxPrime2 : Nat := 14029467366897019727

def xxPrime5 : Nat := 2870177450012600261

/-- `_PyHASH_XXROTATE`: rotate a 64-bit value left by 31 (the two shifted
parts occupy disjoint bit ranges, so their sum is their bitwise or). -/
def xxRotate (x : Nat) : Nat := (x * 2 ^ 31) % u64 + x / 2 ^ 33

/-- CPython's `tuplehash`: fold each item hash, reinterpreted as an unsigned
64-bit lane, by add-multiply/rotate/multiply; mangle in the length; map the
reserved accumulator `-1` to `1546275796`; reinterpret as signed 64-bit. -/
def pyTupleHash (lanes : List Int) : Int :=
  let acc := lanes.foldl
    (fun acc lane =>
      (xxRotate ((acc + (lane % (u64 : Int)).toNat * xxPrime2) % u64) *
        xxPrime1) % u64)
    xxPrime5
  let acc2 := (acc + Nat.xor lanes.length (Nat.xor xxPrime5 3527539)) % u64
  if acc2 = u64 - 1 then 1546275796
  else if acc2 < 2 ^ 63 then (acc2 : Int)
  else (acc2 : Int) - (u64 : Int)

/-- `hash((r, c))` for one cell. -/
def pyHashPos (p : Pos) : Int := pyTupleHash [pyHashInt p.1, pyHashInt p.2]

/-- `hash(boxes)` for the sorted box tuple. -/
def pyHashBoxes (bs : List Pos) : Int := pyTupleHash (bs.map pyHashPos)

/-- `State.__hash__`: `hash((robot_pos, boxes))`. -/
def pyHashState (k : Key) : Int :=
  pyTupleHash [pyHashPos k.1, pyHashBoxes k.2]

/-- The inner `for a, (dr, dc) in enumerate(directions)` loop: simulate each
direction, skip successors whose *hash* is already in the visited set
(`if new_hash not in visited`), append fresh nodes at the queue tail and add
their hashes to the visited set at once.  Distinct states with colliding
hashes are conflated, exactly as in the source. -/
def expand (g : Grid) (st : Node) : List Nat → List Node × List Int →
    List Node × List Int
  | [], acc => acc
  | a :: rest, acc =>
    let k := succKey g st.key a
    if pyHashState k ∈ acc.2 then expand g st rest acc
    else expand g st rest (acc.1 ++ [⟨k, st.path ++ [k]⟩], pyHashState k :: acc.2)

/-- The BFS loop: dequeue, count the node, return on goal, skip expansion at
the depth limit.  Besides the value `plan_bfs` returns it carries the ghost
trace of dequeued (key, depth) pairs, so dequeue-order properties can be
stated. -/
def bfsLoop (g : Grid) (goal : Pos) (maxD : Nat) :
    Nat → List Node → List Int → Nat →
    Option (List Pos × List (List Pos) × Nat) × List (Key × Nat)
  | 0, _, _, _ => (none, [])
  | _ + 1, [], _, _ => (none, [])
  | fuel + 1, st :: rest, visited, nexp =>
    if st.key.1 == goal then
      (some ((reconstruct_path st.path).1, (reconstruct_path st.path).2,
        nexp + 1),
       [(st.key, st.depth)])
    else if maxD ≤ st.depth then
      let r := bfsLoop g goal maxD fuel rest visited (nexp + 1)
      (r.1, (st.key, st.depth) :: r.2)
    else
      let qv := expand g st [0, 1, 2, 3] (rest, visited)
      let r := bfsLoop g goal maxD fuel qv.1 qv.2 (nexp + 1)
      (r.1, (st.key, st.depth) :: r.2)

/-- The initial search key. -/
def startKey (start : Pos) (boxes : List Pos) : Key :=
  (start, sortBoxes boxes)

/-- `plan_bfs(grid, start, goal, boxes, obstacles, max_depth)`: the visited
set is seeded with `hash(initial_state)`; `fuel` dominates the number of
loop iterations of the (finitely branching, visited-pruned) Python loop. -/
def plan_bfs (g : Grid) (start goal : Pos) (boxes : List Pos)
    (maxD fuel : Nat) : Option (List Pos × List (List Pos) × Nat) :=
  (bfsLoop g goal maxD fuel
    [⟨startKey start boxes, [startKey start boxes]⟩]
    [pyHashState (startKey start boxes)] 0).1

/-- The dequeue trace of the same run. -/
def bfsTrace (g : Grid) (start goal : Pos) (boxes : List Pos)
    (maxD fuel : Nat) : List (Key × Nat) :=
  (bfsLoop g goal maxD fuel
    [⟨startKey start boxes, [startKey start boxes]⟩]
    [pyHashState (startKey start boxes)] 0).2

/-- Claim C6 (counterexample): with the start cell on a wall — an
`InvalidInput` per the claim — `plan_bfs` performs no validation at all: it
dequeues the initial state, sees robot = goal, and returns a "successful"
trajectory instead of rejecting the input. -/
theorem invalid_start_accepted_cex :
    cellAt gw (0, 0) = '#' ∧
    plan_bfs gw (0, 0) (0, 0) [] 50 1 = some ([(0, 0)], [], 1) :=
  ⟨by decide, by decide⟩

theorem bfsLoop_cons (g : Grid) (goal : Pos) (maxD fuel : Nat) (st : Node)
    (rest : List Node) (visited : List Int) (nexp : Nat) :
    bfsLoop g goal maxD (fuel + 1) (st :: rest) visited nexp =
      if st.key.1 == goal then
        (some ((reconstruct_path st.path).1, (reconstruct_path st.path).2,
          nexp + 1),
         [(st.key, st.depth)])
      else if maxD ≤ st.depth then
        ((bfsLoop g goal maxD fuel rest visited (nexp + 1)).1,
         (st.key, st.depth) ::
           (bfsLoop g goal maxD fuel rest visited (nexp + 1)).2)
      else
        ((bfsLoop g goal maxD fuel
            (expand g st [0, 1, 2, 3] (rest, visited)).1
            (expand g st [0, 1, 2, 3] (rest, visited)).2 (nexp + 1)).1,
         (st.key, st.depth) ::
           (bfsLoop g goal maxD fuel
             (expand g st [0, 1, 2, 3] (rest, visited)).1
             (expand g st [0, 1, 2, 3] (rest, visited)).2 (nexp + 1)).2) :=
  rfl

/-- Whatever `bfsLoop` returns was built by `reconstruct_path` from the key
chain of some node. -/
theorem bfsLoop_result_shape (g : Grid) (goal : Pos) (maxD : Nat) :
    ∀ (fuel : Nat) (queue : List Node) (visited : List Int) (nexp : Nat)
      (rp : List Pos) (bps : List (List Pos)) (n : Nat),
      (bfsLoop g goal maxD fuel queue visited nexp).1 = some (rp, bps, n) →
      ∃ states : List Key,
        rp = states.map (fun s => s.1) ∧
        bps = (List.range (states.headD ((0, 0), [])).2.length).map fun b =>
          states.map fun s => s.2.getD b dp := by
  intro fuel
  induction fuel with
  | zero =>
    intro queue visited nexp rp bps n h
    simp [bfsLoop] at h
  | succ f ih =>
    intro queue visited nexp rp bps n h
    match queue with
    | [] => simp [bfsLoop] at h
    | st :: rest =>
      rw [bfsLoop_cons] at h
      by_cases hg : st.key.1 == goal
      · rw [if_pos hg] at h
        simp only [reconstruct_path, Option.some.injEq, Prod.mk.injEq] at h
        exact ⟨st.path, h.1.symm, h.2.1.symm⟩
      · rw [if_neg hg] at h
        by_cases hdep : maxD ≤ st.depth
        · rw [if_pos hdep] at h
          exact ih rest visited (nexp + 1) rp bps n h
        · rw [if_neg hdep] at h
          exact ih _ _ (nexp + 1) rp bps n h

/-- Claim C8 (amended): `box_paths[b]` is the per-time sequence of the b-th
cell of the canonically *sorted* box tuple, not of one physical box: the
returned robot path and box paths are always the projections of one key
chain under `reconstruct_path`. -/
theorem box_paths_track_sorted_slots (g : Grid) (start goal : Pos)
    (boxes : List Pos) (maxD fuel : Nat) (rp : List Pos)
    (bps : List (List Pos)) (n : Nat)
    (h : plan_bfs g start goal boxes maxD fuel = some (rp, bps, n)) :
    ∃ states : List Key,
      rp = states.map (fun s => s.1) ∧
      bps = (List.range (states.headD ((0, 0), [])).2.length).map fun b =>
        states.map fun s => s.2.getD b dp :=
  bfsLoop_result_shape g goal maxD fuel _ _ 0 rp bps n h

/-- Witness for C8's amended theorem on the concrete 3×3 instance. -/
theorem box_paths_track_sorted_slots_witness :
    ∃ states : List Key,
      ([(0, 1), (1, 1)] : List Pos) = states.map (fun s => s.1) ∧
      ([[(1, 1), (2, 0)], [(2, 0), (2, 1)]] : List (List Pos)) =
        (List.range (states.headD ((0, 0), [])).2.length).map fun b =>
          states.map fun s => s.2.getD b dp :=
  box_paths_track_sorted_slots g33 (0, 1) (1, 1) [(1, 1), (2, 0)] 50 10
    [(0, 1), (1, 1)] [[(1, 1), (2, 0)], [(2, 0), (2, 1)]] 2 (by decide)

/-- Claim C8 (counterexample): on the 3×3 instance the returned step pushes
only one box — `slide_robot_and_box` moves the box at sorted slot 0 from
`(1,1)` to `(2,1)` and leaves `(2,0)` in place, so the two physical box
trajectories are `(1,1)→(2,1)` and `(2,0)→(2,0)` — yet `box_paths` is
neither assignment of those two trajectories to slots: both returned
sequences change in the step, because re-sorting the box tuple moved the
untouched box `(2,0)` into slot 0. -/
theorem box_identity_not_stable_cex :
    plan_bfs g33 (0, 1) (1, 1) [(1, 1), (2, 0)] 50 10 =
      some ([(0, 1), (1, 1)], [[(1, 1), (2, 0)], [(2, 0), (2, 1)]], 2) ∧
    slide_robot_and_box g33 (0, 1) (1, 0) [(1, 1), (2, 0)] =
      ((1, 1), [(2, 1), (2, 0)]) ∧
    ([[(1, 1), (2, 0)], [(2, 0), (2, 1)]] : List (List Pos)) ≠
      [[(1, 1), (2, 1)], [(2, 0), (2, 0)]] ∧
    ([[(1, 1), (2, 0)], [(2, 0), (2, 1)]] : List (List Pos)) ≠
      [[(2, 0), (2, 0)], [(1, 1), (2, 1)]] :=
  ⟨by decide, by decide, by decide, by decide⟩

/-! ### Shortest-path analysis of an idealised, collision-free BFS variant

The real `plan_bfs` above stores 64-bit `hash(state)` values in its visited
set, so two distinct states with colliding hashes are conflated and the
later one pruned; under such a collision a shortest path can be lost, and
then neither shortest-trajectory optimality nor minimal dequeue depth is
guaranteed.  Whether that ever happens depends on the injectivity of
CPython's tuple hash on the reachable state space, which is neither provable
(the hash is a 64-bit function on an unbounded domain) nor concretely
refutable here.  The following development therefore analyses an explicitly
separate *idealised variant*, `plan_bfs_keyset`, identical to `plan_bfs`
except that its visited set stores the canonical keys themselves — the
collision-free reading of the hash.  For this variant the textbook BFS
guarantees are proved in full; none of these results is a statement about
`plan_bfs` itself. -/

/-- The expansion loop of the idealised variant: membership of the canonical
key itself replaces membership of its hash. -/
def expandKeys (g : Grid) (st : Node) : List Nat → List Node × List Key →
    List Node × List Key
  | [], acc => acc
  | a :: rest, acc =>
    let k := succKey g st.key a
    if k ∈ acc.2 then expandKeys g st rest acc
    else expandKeys g st rest (acc.1 ++ [⟨k, st.path ++ [k]⟩], k :: acc.2)

/-- The BFS loop of the idealised variant (visited set of keys). -/
def bfsLoopKeys (g : Grid) (goal : Pos) (maxD : Nat) :
    Nat → List Node → List Key → Nat →
    Option (List Pos × List (List Pos) × Nat) × List (Key × Nat)
  | 0, _, _, _ => (none, [])
  | _ + 1, [], _, _ => (none, [])
  | fuel + 1, st :: rest, visited, nexp =>
    if st.key.1 == goal then
      (some ((reconstruct_path st.path).1, (reconstruct_path st.path).2,
        nexp + 1),
       [(st.key, st.depth)])
    else if maxD ≤ st.depth then
      let r := bfsLoopKeys g goal maxD fuel rest visited (nexp + 1)
      (r.1, (st.key, st.depth) :: r.2)
    else
      let qv := expandKeys g st [0, 1, 2, 3] (rest, visited)
      let r := bfsLoopKeys g goal maxD fuel qv.1 qv.2 (nexp + 1)
      (r.1, (st.key, st.depth) :: r.2)

/-- The idealised variant of `plan_bfs` (visited set of keys, not hashes). -/
def plan_bfs_keyset (g : Grid) (start goal : Pos) (boxes : List Pos)
    (maxD fuel : Nat) : Option (List Pos × List (List Pos) × Nat) :=
  (bfsLoopKeys g goal maxD fuel
    [⟨startKey start boxes, [startKey start boxes]⟩]
    [startKey start boxes] 0).1

/-- The dequeue trace of the idealised variant. -/
def bfsTraceKeys (g : Grid) (start goal : Pos) (boxes : List Pos)
    (maxD fuel : Nat) : List (Key × Nat) :=
  (bfsLoopKeys g goal maxD fuel
    [⟨startKey start boxes, [startKey start boxes]⟩]
    [startKey start boxes] 0).2

theorem bfsLoopKeys_cons (g : Grid) (goal : Pos) (maxD fuel : Nat)
    (st : Node) (rest : List Node) (visited : List Key) (nexp : Nat) :
    bfsLoopKeys g goal maxD (fuel + 1) (st :: rest) visited nexp =
      if st.key.1 == goal then
        (some ((reconstruct_path st.path).1, (reconstruct_path st.path).2,
          nexp + 1),
         [(st.key, st.depth)])
      else if maxD ≤ st.depth then
        ((bfsLoopKeys g goal maxD fuel rest visited (nexp + 1)).1,
         (st.key, st.depth) ::
           (bfsLoopKeys g goal maxD fuel rest visited (nexp + 1)).2)
      else
        ((bfsLoopKeys g goal maxD fuel
            (expandKeys g st [0, 1, 2, 3] (rest, visited)).1
            (expandKeys g st [0, 1, 2, 3] (rest, visited)).2 (nexp + 1)).1,
         (st.key, st.depth) ::
           (bfsLoopKeys g goal maxD fuel
             (expandKeys g st [0, 1, 2, 3] (rest, visited)).1
             (expandKeys g st [0, 1, 2, 3] (rest, visited)).2 (nexp + 1)).2) :=
  rfl

/-- Reachability in exactly `n` search steps from `k0`. -/
inductive ReachN (g : Grid) (k0 : Key) : Nat → Key → Prop
  | refl : ReachN g k0 0 k0
  | step {n : Nat} {k : Key} {a : Nat} :
      ReachN g k0 n k → a < 4 → ReachN g k0 (n + 1) (succKey g k a)

/-- `k`'s BFS distance from `k0` is exactly `d`. -/
def minReach (g : Grid) (k0 k : Key) (d : Nat) : Prop :=
  ReachN g k0 d k ∧ ∀ m, m < d → ¬ ReachN g k0 m k

theorem minReach_le {g : Grid} {k0 k : Key} {d m : Nat}
    (h : minReach g k0 k d) (hr : ReachN g k0 m k) : d ≤ m := by
  by_contra hlt
  exact h.2 m (by omega) hr

theorem mem_dirIdx {a : Nat} (h : a ∈ [0, 1, 2, 3]) : a < 4 := by
  simp only [List.mem_cons, List.mem_singleton, List.not_mem_nil, or_false]
    at h
  rcases h with rfl | rfl | rfl | rfl <;> omega

theorem dirIdx_mem {a : Nat} (h : a < 4) : a ∈ [0, 1, 2, 3] := by
  interval_cases a <;> decide

theorem pairwise_of_mem_all {α : Type} {R : α → α → Prop} :
    ∀ l : List α, (∀ x ∈ l, ∀ y ∈ l, R x y) → l.Pairwise R := by
  intro l
  induction l with
  | nil => intro _; exact List.Pairwise.nil
  | cons x xs ih =>
    intro h
    refine List.Pairwise.cons ?_ (ih fun u hu v hv =>
      h u (List.mem_cons_of_mem _ hu) v (List.mem_cons_of_mem _ hv))
    intro y hy
    exact h x (List.mem_cons_self _ _) y (List.mem_cons_of_mem _ hy)

/-- What one call of the expansion loop does to the queue and visited set. -/
theorem expandKeys_spec (g : Grid) (st : Node) :
    ∀ (as : List Nat) (q : List Node) (v : List Key),
      ∃ new : List Node,
        (expandKeys g st as (q, v)).1 = q ++ new ∧
        (∀ nd ∈ new,
          (∃ a ∈ as, nd.key = succKey g st.key a) ∧
          nd.path = st.path ++ [nd.key] ∧ nd.key ∉ v) ∧
        (∀ k ∈ (expandKeys g st as (q, v)).2,
          k ∈ v ∨ ∃ nd ∈ new, nd.key = k) ∧
        (∀ k ∈ v, k ∈ (expandKeys g st as (q, v)).2) ∧
        (∀ a ∈ as, succKey g st.key a ∈ (expandKeys g st as (q, v)).2) := by
  intro as
  induction as with
  | nil =>
    intro q v
    exact ⟨[], by simp [expandKeys], by simp, fun k hk => Or.inl hk,
      fun k hk => hk, by simp⟩
  | cons a rest ih =>
    intro q v
    by_cases hmem : succKey g st.key a ∈ v
    · have heq : expandKeys g st (a :: rest) (q, v) = expandKeys g st rest (q, v) := by
        simp [expandKeys, hmem]
      obtain ⟨new, h1, h2, h3, h4, h5⟩ := ih q v
      rw [heq]
      refine ⟨new, h1, ?_, h3, h4, ?_⟩
      · intro nd hnd
        obtain ⟨⟨a2, ha2, hk⟩, hp, hnv⟩ := h2 nd hnd
        exact ⟨⟨a2, List.mem_cons_of_mem _ ha2, hk⟩, hp, hnv⟩
      · intro a2 ha2
        rcases List.mem_cons.mp ha2 with rfl | ha2
        · exact h4 _ hmem
        · exact h5 a2 ha2
    · have heq : expandKeys g st (a :: rest) (q, v) =
          expandKeys g st rest
            (q ++ [⟨succKey g st.key a, st.path ++ [succKey g st.key a]⟩],
             succKey g st.key a :: v) := by
        simp [expandKeys, hmem]
      obtain ⟨new, h1, h2, h3, h4, h5⟩ :=
        ih (q ++ [⟨succKey g st.key a, st.path ++ [succKey g st.key a]⟩])
          (succKey g st.key a :: v)
      rw [heq]
      refine ⟨⟨succKey g st.key a, st.path ++ [succKey g st.key a]⟩ :: new,
        ?_, ?_, ?_, ?_, ?_⟩
      · rw [h1]
        simp
      · intro nd hnd
        rcases List.mem_cons.mp hnd with rfl | hnd
        · exact ⟨⟨a, List.mem_cons_self _ _, rfl⟩, rfl, hmem⟩
        · obtain ⟨⟨a2, ha2, hk⟩, hp, hnv⟩ := h2 nd hnd
          exact ⟨⟨a2, List.mem_cons_of_mem _ ha2, hk⟩, hp,
            fun hc => hnv (List.mem_cons_of_mem _ hc)⟩
      · intro k hk
        rcases h3 k hk with hkv | ⟨nd, hnd, hknd⟩
        · rcases List.mem_cons.mp hkv with rfl | hkv
          · exact Or.inr ⟨⟨succKey g st.key a,
              st.path ++ [succKey g st.key a]⟩,
              List.mem_cons_self _ _, rfl⟩
          · exact Or.inl hkv
        · exact Or.inr ⟨nd, List.mem_cons_of_mem _ hnd, hknd⟩
      · intro k hk
        exact h4 k (List.mem_cons_of_mem _ hk)
      · intro a2 ha2
        rcases List.mem_cons.mp ha2 with rfl | ha2
        · exact h4 _ (List.mem_cons_self _ _)
        · exact h5 a2 ha2

/-- The BFS loop invariant: queue nodes carry nonempty chains and sit at
their exact BFS distance, within the depth limit; queue depths are
nondecreasing and span at most two consecutive layers; everything strictly
closer than the head is already visited; and every visited key either still
waits in the queue at its exact distance or was already dequeued — found not
to be a goal and, if below the depth limit, fully expanded. -/
structure BfsInv (g : Grid) (k0 : Key) (goal : Pos) (maxD : Nat)
    (queue : List Node) (visited : List Key) : Prop where
  start_vis : k0 ∈ visited
  node_ok : ∀ nd ∈ queue, nd.path ≠ [] ∧ minReach g k0 nd.key nd.depth ∧
    nd.depth ≤ maxD
  sorted : queue.Pairwise fun n1 n2 => n1.depth ≤ n2.depth
  bounded : ∀ hd, queue.head? = some hd → ∀ nd ∈ queue,
    nd.depth ≤ hd.depth + 1
  closed : ∀ hd, queue.head? = some hd → ∀ k m, ReachN g k0 m k →
    m < hd.depth → k ∈ visited
  vis_ok : ∀ k ∈ visited,
    (∃ nd ∈ queue, nd.key = k ∧ minReach g k0 k nd.depth) ∨
    (k.1 ≠ goal ∧ ∃ d, minReach g k0 k d ∧ d ≤ maxD ∧
      (d < maxD → ∀ a, a < 4 → succKey g k a ∈ visited))

/-- Under the invariant every key reachable in exactly the head's depth is
already visited: its last predecessor is strictly closer, hence visited, no
longer queued (queue depths are too large), so it was expanded. -/
theorem visited_at_head_depth {g : Grid} {k0 : Key} {goal : Pos}
    {maxD : Nat} {st : Node} {rest : List Node} {visited : List Key}
    (hInv : BfsInv g k0 goal maxD (st :: rest) visited) :
    ∀ k, ReachN g k0 st.depth k → k ∈ visited := by
  intro k hk
  cases hD : st.depth with
  | zero =>
    rw [hD] at hk
    cases hk
    exact hInv.start_vis
  | succ n =>
    rw [hD] at hk
    cases hk with
    | step hprev ha =>
      rename_i kPrev aStep
      have hkv : kPrev ∈ visited := by
        refine hInv.closed st rfl kPrev n hprev ?_
        omega
      rcases hInv.vis_ok kPrev hkv with
        ⟨nd, hnd, hkey, hminnd⟩ | ⟨_, d, hmind, _, hexp⟩
      · have h1 : nd.depth ≤ n := minReach_le hminnd hprev
        have h2 : st.depth ≤ nd.depth := by
          rcases List.mem_cons.mp hnd with rfl | hnd2
          · exact le_refl _
          · exact (List.pairwise_cons.mp hInv.sorted).1 nd hnd2
        omega
      · have hdlt : d < maxD := by
          have hd1 : d ≤ n := minReach_le hmind hprev
          have hd2 : st.depth ≤ maxD :=
            (hInv.node_ok st (List.mem_cons_self _ _)).2.2
          omega
        exact hexp hdlt aStep ha

/-- A key produced by expanding the head that is not yet visited sits at
distance exactly head depth + 1. -/
theorem fresh_child_minReach {g : Grid} {k0 : Key} {goal : Pos}
    {maxD : Nat} {st : Node} {rest : List Node} {visited : List Key}
    (hInv : BfsInv g k0 goal maxD (st :: rest) visited)
    {k : Key} {a : Nat} (ha : a < 4) (hk : k = succKey g st.key a)
    (hnv : k ∉ visited) : minReach g k0 k (st.depth + 1) := by
  have hmin := (hInv.node_ok st (List.mem_cons_self _ _)).2.1
  constructor
  · rw [hk]
    exact ReachN.step hmin.1 ha
  · intro m hm hr
    rcases Nat.lt_succ_iff_lt_or_eq.mp hm with hm2 | hm2
    · exact hnv (hInv.closed st rfl k m hr hm2)
    · rw [hm2] at hr
      exact hnv (visited_at_head_depth hInv k hr)

theorem mem_of_head?_eq {α : Type} {l : List α} {a : α}
    (h : l.head? = some a) : a ∈ l :=
  List.mem_of_mem_head? (by rw [h]; rfl)

/-- Popping a node at the depth limit (skipping expansion) preserves the
invariant. -/
theorem BfsInv_pop_skip {g : Grid} {k0 : Key} {goal : Pos} {maxD : Nat}
    {st : Node} {rest : List Node} {visited : List Key}
    (hInv : BfsInv g k0 goal maxD (st :: rest) visited)
    (hgoal_ne : st.key.1 ≠ goal) (hdep : maxD ≤ st.depth) :
    BfsInv g k0 goal maxD rest visited := by
  have hst := hInv.node_ok st (List.mem_cons_self _ _)
  have hst_eq : st.depth = maxD := le_antisymm hst.2.2 hdep
  have hsorted_cons := List.pairwise_cons.mp hInv.sorted
  refine ⟨hInv.start_vis,
    fun nd hnd => hInv.node_ok nd (List.mem_cons_of_mem _ hnd),
    hsorted_cons.2, ?_, ?_, ?_⟩
  · intro hd hhd nd hnd
    have h1 : st.depth ≤ hd.depth := hsorted_cons.1 hd (mem_of_head?_eq hhd)
    have h2 : nd.depth ≤ st.depth + 1 :=
      hInv.bounded st rfl nd (List.mem_cons_of_mem _ hnd)
    omega
  · intro hd hhd k m hr hm
    have h1 : hd.depth ≤ maxD :=
      (hInv.node_ok hd (List.mem_cons_of_mem _ (mem_of_head?_eq hhd))).2.2
    exact hInv.closed st rfl k m hr (by omega)
  · intro k hk
    rcases hInv.vis_ok k hk with ⟨nd, hnd, hkey, hminnd⟩ | hp
    · rcases List.mem_cons.mp hnd with rfl | hnd2
      · refine Or.inr ⟨by rw [← hkey]; exact hgoal_ne, nd.depth, hminnd,
          hst.2.2, ?_⟩
        intro hlt
        exact absurd hlt (by omega)
      · exact Or.inl ⟨nd, hnd2, hkey, hminnd⟩
    · exact Or.inr hp

/-- Popping and expanding a node strictly below the depth limit preserves the
invariant. -/
theorem BfsInv_pop_expand {g : Grid} {k0 : Key} {goal : Pos} {maxD : Nat}
    {st : Node} {rest : List Node} {visited : List Key}
    (hInv : BfsInv g k0 goal maxD (st :: rest) visited)
    (hgoal_ne : st.key.1 ≠ goal) (hdep : st.depth < maxD) :
    BfsInv g k0 goal maxD (expandKeys g st [0, 1, 2, 3] (rest, visited)).1
      (expandKeys g st [0, 1, 2, 3] (rest, visited)).2 := by
  obtain ⟨new, hq, hnew, hv2, hv1, hsucc⟩ :=
    expandKeys_spec g st [0, 1, 2, 3] rest visited
  have hst := hInv.node_ok st (List.mem_cons_self _ _)
  have hlen : st.path.length = st.depth + 1 := by
    have hne : st.path.length ≠ 0 := by simpa using hst.1
    show st.path.length = st.path.length - 1 + 1
    omega
  have hnew_depth : ∀ nd ∈ new, nd.depth = st.depth + 1 := by
    intro nd hnd
    obtain ⟨_, hp, _⟩ := hnew nd hnd
    show nd.path.length - 1 = st.depth + 1
    rw [hp, List.length_append, hlen]
    simp
  have hnew_min : ∀ nd ∈ new, minReach g k0 nd.key (st.depth + 1) := by
    intro nd hnd
    obtain ⟨⟨a, ha, hk⟩, _, hnv⟩ := hnew nd hnd
    exact fresh_child_minReach hInv (mem_dirIdx ha) hk hnv
  have hsorted_cons := List.pairwise_cons.mp hInv.sorted
  rw [hq]
  refine ⟨hv1 k0 hInv.start_vis, ?_, ?_, ?_, ?_, ?_⟩
  · intro nd hnd
    rcases List.mem_append.mp hnd with hnd2 | hnd2
    · exact hInv.node_ok nd (List.mem_cons_of_mem _ hnd2)
    · obtain ⟨_, hp, _⟩ := hnew nd hnd2
      refine ⟨by simp [hp], ?_, ?_⟩
      · rw [hnew_depth nd hnd2]
        exact hnew_min nd hnd2
      · rw [hnew_depth nd hnd2]
        omega
  · rw [List.pairwise_append]
    refine ⟨hsorted_cons.2, pairwise_of_mem_all new ?_, ?_⟩
    · intro x hx y hy
      rw [hnew_depth x hx, hnew_depth y hy]
    · intro x hx y hy
      have h1 : x.depth ≤ st.depth + 1 :=
        hInv.bounded st rfl x (List.mem_cons_of_mem _ hx)
      rw [hnew_depth y hy]
      omega
  · intro hd hhd nd hnd
    have hd_ge : st.depth ≤ hd.depth := by
      rcases List.mem_append.mp (mem_of_head?_eq hhd) with h | h
      · exact hsorted_cons.1 hd h
      · rw [hnew_depth hd h]
        omega
    rcases List.mem_append.mp hnd with h | h
    · have := hInv.bounded st rfl nd (List.mem_cons_of_mem _ h)
      omega
    · rw [hnew_depth nd h]
      omega
  · intro hd hhd k m hr hm
    have hd_le : hd.depth ≤ st.depth + 1 := by
      rcases List.mem_append.mp (mem_of_head?_eq hhd) with h | h
      · exact hInv.bounded st rfl hd (List.mem_cons_of_mem _ h)
      · rw [hnew_depth hd h]
    rcases Nat.lt_succ_iff_lt_or_eq.mp (show m < st.depth + 1 by omega)
      with h2 | h2
    · exact hv1 k (hInv.closed st rfl k m hr h2)
    · rw [h2] at hr
      exact hv1 k (visited_at_head_depth hInv k hr)
  · intro k hk
    rcases hv2 k hk with hkv | ⟨nd, hnd, hknd⟩
    · rcases hInv.vis_ok k hkv with ⟨nd, hnd, hkey, hminnd⟩ |
        ⟨hng, d, h1, h2, h3⟩
      · rcases List.mem_cons.mp hnd with rfl | hnd2
        · refine Or.inr ⟨by rw [← hkey]; exact hgoal_ne, nd.depth, hminnd,
            hst.2.2, ?_⟩
          intro _ a ha
          rw [← hkey]
          exact hsucc a (dirIdx_mem ha)
        · exact Or.inl ⟨nd, List.mem_append_left _ hnd2, hkey, hminnd⟩
      · exact Or.inr ⟨hng, d, h1, h2, fun hlt a ha => hv1 _ (h3 hlt a ha)⟩
    · refine Or.inl ⟨nd, List.mem_append_right _ hnd, hknd, ?_⟩
      rw [hnew_depth nd hnd, ← hknd]
      exact hnew_min nd hnd

/-- Soundness of the BFS loop: under the invariant every dequeued node sits
at its exact BFS distance, and a returned trajectory's move count is the
minimum distance over all goal-reaching keys. -/
theorem bfsLoopKeys_sound (g : Grid) (k0 : Key) (goal : Pos) (maxD : Nat) :
    ∀ (fuel : Nat) (queue : List Node) (visited : List Key) (nexp : Nat),
      BfsInv g k0 goal maxD queue visited →
      (∀ kd ∈ (bfsLoopKeys g goal maxD fuel queue visited nexp).2,
        minReach g k0 kd.1 kd.2) ∧
      (∀ rp bps n,
        (bfsLoopKeys g goal maxD fuel queue visited nexp).1 = some (rp, bps, n) →
        ∃ D, rp.length = D + 1 ∧ (∃ k, ReachN g k0 D k ∧ k.1 = goal) ∧
          ∀ m k, ReachN g k0 m k → k.1 = goal → D ≤ m) := by
  intro fuel
  induction fuel with
  | zero =>
    intro queue visited nexp _
    constructor
    · intro kd hkd
      simp [bfsLoopKeys] at hkd
    · intro rp bps n h
      simp [bfsLoopKeys] at h
  | succ f ih =>
    intro queue visited nexp hInv
    match queue with
    | [] =>
      constructor
      · intro kd hkd
        simp [bfsLoopKeys] at hkd
      · intro rp bps n h
        simp [bfsLoopKeys] at h
    | st :: rest =>
      obtain ⟨hpath, hmin, hdle⟩ := hInv.node_ok st (List.mem_cons_self _ _)
      rw [bfsLoopKeys_cons]
      by_cases hg : st.key.1 == goal
      · rw [if_pos hg]
        constructor
        · intro kd hkd
          simp only [List.mem_singleton] at hkd
          rw [hkd]
          exact hmin
        · intro rp bps n h
          simp only [Option.some.injEq, Prod.mk.injEq, reconstruct_path] at h
          refine ⟨st.depth, ?_, ⟨st.key, hmin.1, by simpa using hg⟩, ?_⟩
          · rw [h.1.symm, List.length_map]
            have hne : st.path.length ≠ 0 := by simpa using hpath
            show st.path.length = st.path.length - 1 + 1
            omega
          · intro m k hr hgoal
            by_contra hlt
            push_neg at hlt
            have hkv : k ∈ visited := hInv.closed st rfl k m hr (by omega)
            rcases hInv.vis_ok k hkv with ⟨nd, hnd, hkey, hminnd⟩ | ⟨hng, _⟩
            · have h1 : nd.depth ≤ m := minReach_le hminnd hr
              have h2 : st.depth ≤ nd.depth := by
                rcases List.mem_cons.mp hnd with rfl | hnd2
                · exact le_refl _
                · exact (List.pairwise_cons.mp hInv.sorted).1 nd hnd2
              omega
            · exact hng hgoal
      · rw [if_neg hg]
        have hgoal_ne : st.key.1 ≠ goal := by simpa using hg
        by_cases hdep : maxD ≤ st.depth
        · rw [if_pos hdep]
          obtain ⟨htr, hres⟩ := ih rest visited (nexp + 1)
            (BfsInv_pop_skip hInv hgoal_ne hdep)
          constructor
          · intro kd hkd
            rcases List.mem_cons.mp hkd with rfl | hkd2
            · exact hmin
            · exact htr kd hkd2
          · intro rp bps n h
            exact hres rp bps n h
        · rw [if_neg hdep]
          push_neg at hdep
          obtain ⟨htr, hres⟩ := ih _ _ (nexp + 1)
            (BfsInv_pop_expand hInv hgoal_ne hdep)
          constructor
          · intro kd hkd
            rcases List.mem_cons.mp hkd with rfl | hkd2
            · exact hmin
            · exact htr kd hkd2
          · intro rp bps n h
            exact hres rp bps n h

/-- Shortest-path optimality of the *idealised* `plan_bfs_keyset`: whenever
it returns a trajectory, the move count `D` (robot path length minus one) is
realised by a goal-reaching key at search distance `D`, no goal-reaching key
is reachable in fewer steps, and every dequeued configuration is dequeued at
exactly the minimum depth at which it is first reachable from the start.
This isolates what the real `plan_bfs` would guarantee if its state hashing
never collided; it is not a statement about `plan_bfs`. -/
theorem plan_bfs_keyset_shortest (g : Grid) (start goal : Pos)
    (boxes : List Pos)
    (maxD fuel : Nat) (rp : List Pos) (bps : List (List Pos)) (n : Nat)
    (h : plan_bfs_keyset g start goal boxes maxD fuel = some (rp, bps, n)) :
    (∃ D, rp.length = D + 1 ∧
      (∃ k, ReachN g (startKey start boxes) D k ∧ k.1 = goal) ∧
      ∀ m k, ReachN g (startKey start boxes) m k → k.1 = goal → D ≤ m) ∧
    ∀ kd ∈ bfsTraceKeys g start goal boxes maxD fuel,
      minReach g (startKey start boxes) kd.1 kd.2 := by
  have hd0 : Node.depth ⟨startKey start boxes, [startKey start boxes]⟩ = 0 :=
    rfl
  have hInv : BfsInv g (startKey start boxes) goal maxD
      [⟨startKey start boxes, [startKey start boxes]⟩]
      [startKey start boxes] := by
    refine ⟨List.mem_singleton_self _, ?_, ?_, ?_, ?_, ?_⟩
    · intro nd hnd
      rw [List.mem_singleton] at hnd
      subst hnd
      refine ⟨by simp, ⟨ReachN.refl, ?_⟩, by omega⟩
      intro m hm
      rw [hd0] at hm
      omega
    · simp
    · intro hd hhd nd hnd
      rw [List.mem_singleton] at hnd
      subst hnd
      omega
    · intro hd hhd k m hr hm
      have : hd = ⟨startKey start boxes, [startKey start boxes]⟩ := by
        simpa using hhd.symm
      rw [this, hd0] at hm
      omega
    · intro k hk
      rw [List.mem_singleton] at hk
      subst hk
      refine Or.inl ⟨⟨startKey start boxes, [startKey start boxes]⟩,
        List.mem_singleton_self _, rfl, ReachN.refl, ?_⟩
      intro m hm
      rw [hd0] at hm
      omega
  obtain ⟨htr, hres⟩ := bfsLoopKeys_sound g (startKey start boxes) goal maxD
    fuel _ _ 0 hInv
  exact ⟨hres rp bps n h, htr⟩

/-- 1×2 all-free grid. -/
def g12 : Grid := [['.', '.']]

/-- The idealised optimality theorem exercised on a concrete two-cell
instance: the returned move count 1 is witnessed and minimal, and each
dequeued configuration sits at its exact BFS distance. -/
theorem plan_bfs_keyset_shortest_example :
    (∃ D, ([((0 : Int), (0 : Int)), ((0 : Int), (1 : Int))] : List Pos).length
        = D + 1 ∧
      (∃ k, ReachN g12 (startKey (0, 0) []) D k ∧ k.1 = (0, 1)) ∧
      ∀ m k, ReachN g12 (startKey (0, 0) []) m k → k.1 = (0, 1) → D ≤ m) ∧
    ∀ kd ∈ bfsTraceKeys g12 (0, 0) (0, 1) [] 5 5,
      minReach g12 (startKey (0, 0) []) kd.1 kd.2 :=
  plan_bfs_keyset_shortest g12 (0, 0) (0, 1) [] 5 5
    [((0 : Int), (0 : Int)), ((0 : Int), (1 : Int))] [] 2 (by decide)

/-! ### The horizon driver of main.py

`main()` submits one worker per horizon `t` in `range(MAX_T)` to a process
pool and iterates `as_completed`, skipping `None` results and accepting the
first successful result to complete (then shutting the pool down).  The
nondeterministic completion order is made an explicit parameter `order`; the
per-horizon worker outcome (encode + external solve + decode) is the
function `results`. -/

def horizon_driver {α : Type} (results : Nat → Option α) :
    List Nat → Option (Nat × α)
  | [] => none
  | t :: rest =>
    match results t with
    | some r => some (t, r)
    | none => horizon_driver results rest

theorem horizon_driver_cons {α : Type} (results : Nat → Option α) (t : Nat)
    (rest : List Nat) :
    horizon_driver results (t :: rest) =
      match results t with
      | some r => some (t, r)
      | none => horizon_driver results rest := rfl

/-- Worker results in which horizons 2 and 3 succeed, 0 and 1 fail. -/
def resEx : Nat → Option Nat := fun t => if 2 ≤ t then some t else none

/-- Claim C9 (counterexample): with horizons `0..3` dispatched, horizons 2
and 3 both successful and horizon 3 completing first, the driver reports
horizon 3, not the minimum successful horizon 2. -/
theorem first_finisher_not_min_cex :
    horizon_driver resEx [3, 2, 1, 0] = some (3, 3) ∧
    resEx 2 = some 2 ∧ (2 : Nat) < 3 ∧
    ([3, 2, 1, 0] : List Nat).Perm [0, 1, 2, 3] :=
  ⟨by decide, by decide, by decide, by decide⟩

/-- Claim C9 (amended): the driver returns the first successful horizon in
completion order — every horizon completing before it failed — with no
comparison against other successful horizons, so under an adversarial
completion order the reported horizon exceeds the minimum successful one. -/
theorem horizon_driver_first_success {α : Type} (results : Nat → Option α)
    (order : List Nat) (t : Nat) (r : α)
    (h : horizon_driver results order = some (t, r)) :
    results t = some r ∧
    ∃ pre post, order = pre ++ t :: post ∧ ∀ u ∈ pre, results u = none := by
  induction order with
  | nil => simp [horizon_driver] at h
  | cons t0 rest ih =>
    rw [horizon_driver_cons] at h
    cases hres : results t0 with
    | some r0 =>
      rw [hres] at h
      simp only [Option.some.injEq, Prod.mk.injEq] at h
      obtain ⟨rfl, rfl⟩ := h
      exact ⟨hres, [], rest, rfl, by simp⟩
    | none =>
      rw [hres] at h
      obtain ⟨h1, pre, post, heq, hpre⟩ := ih h
      refine ⟨h1, t0 :: pre, post, by rw [heq]; rfl, ?_⟩
      intro u hu
      rcases List.mem_cons.mp hu with rfl | hu2
      · exact hres
      · exact hpre u hu2

/-- Witness for C9's amended theorem on the concrete adversarial order. -/
theorem horizon_driver_first_success_witness :
    resEx 3 = some 3 ∧
    ∃ pre post, ([3, 2, 1, 0] : List Nat) = pre ++ 3 :: post ∧
      ∀ u ∈ pre, resEx u = none :=
  horizon_driver_first_success resEx [3, 2, 1, 0] 3 3 (by decide)

end SokobanIce
